import Mathlib

/-!
# Verification of the PhotoDate-Fix core pipeline

Shallow embedding of the photo-ingestion / transactional-correction /
similarity-grouping pipeline (`src/app.py`, `src/database.py`,
`src/similarity_analyzer.py`, `src/scheduler.py`) and proofs of the
specification claims about it.

File contents are modelled as abstract fingerprints (`Nat`); a filesystem is
a map from path strings to optional contents.  SQLite tables are modelled as
Lean lists of row structures; SQLite autoincrement ids are modelled with
explicit counters.  Library calls with numeric/float output (sha256, DBSCAN,
cosine similarity, `secrets.token_hex`, timestamps) are abstracted as oracle
parameters, constrained only by facts used in the source (e.g. hex suffixes
consist of hex digits).
-/

namespace PhotoFix

/-- A filesystem: map from path to optional file contents (abstract bytes). -/
def FS : Type := String → Option Nat

/-- Point update of a filesystem. -/
def FS.set (fs : FS) (p : String) (v : Option Nat) : FS :=
  fun q => if q = p then v else fs q

theorem FS.set_same (fs : FS) (p : String) (v : Option Nat) : fs.set p v p = v := by
  simp [FS.set]

theorem FS.set_other (fs : FS) (p q : String) (v : Option Nat) (h : q ≠ p) :
    fs.set p v q = fs q := by
  simp [FS.set, h]

/-! ## Python string primitives

The pairing-resolver functions operate on filenames character by character,
so they are embedded over `List Char` with `String` wrappers carrying the
source names. -/

/-- Python `str.endswith(suf)`: exact, case-sensitive suffix test. -/
def endsWithL (s suf : List Char) : Bool := suf.isSuffixOf s

/-- Python `str.startswith(p)`: exact, case-sensitive test. -/
def startsWithL (s p : List Char) : Bool := p.isPrefixOf s

/-- Python `str.lower()` (ASCII range, as used on filenames). -/
def lowerL (s : List Char) : List Char := s.map Char.toLower

/-- Index of the last occurrence of `c`, Python `str.rfind` restricted to a
single character (`None` when absent). -/
def lastIdx? (c : Char) : List Char → Option Nat
  | [] => none
  | a :: as =>
    match lastIdx? c as with
    | some i => some (i + 1)
    | none => if a = c then some 0 else none

/-- The split position of `os.path.splitext` (CPython
`genericpath._splitext` with `sep='/'`): the last dot, unless every
character between the last separator and that dot is itself a dot (dotfiles
keep their name whole). -/
def splitextIdx? (l : List Char) : Option Nat :=
  match lastIdx? '.' l with
  | none => none
  | some di =>
    let start := match lastIdx? '/' l with
      | none => 0
      | some si => si + 1
    if start ≤ di ∧ ((l.drop start).take (di - start)).any (fun ch => ch ≠ '.') then
      some di
    else none

/-- `os.path.splitext(p)[0]`. -/
def splitextStemL (l : List Char) : List Char :=
  match splitextIdx? l with
  | some di => l.take di
  | none => l

/-- `os.path.splitext(p)[1]`: the extension part (empty when no split). -/
def splitextExtL (l : List Char) : List Char :=
  match splitextIdx? l with
  | some di => l.drop di
  | none => []

/-- `os.path.basename(p)` for POSIX paths: everything after the last `/`. -/
def basenameL (l : List Char) : List Char :=
  match lastIdx? '/' l with
  | none => l
  | some si => l.drop (si + 1)

/-! ## Pairing resolver: role determination (claim C4)

`PhotoManager._determine_file_type` (src/app.py:263-270), identical to
`DatabaseManager._determine_file_type` (src/database.py:260-267). -/

/-- `_determine_file_type(filename)` from the source: case-sensitive
`str.endswith` tests for `_a.jpg`/`_a.jpeg` then `_b.jpg`/`_b.jpeg`. -/
def determineFileTypeL (filename : List Char) : List Char :=
  if endsWithL filename "_a.jpg".data || endsWithL filename "_a.jpeg".data then
    "front".data
  else if endsWithL filename "_b.jpg".data || endsWithL filename "_b.jpeg".data then
    "back".data
  else
    "variant".data

/-- String-level wrapper keeping the source name. -/
def _determine_file_type (filename : String) : String :=
  ⟨determineFileTypeL filename.data⟩

/-- Case-insensitive suffix test, as the specification describes role
determination ("in any letter case"). -/
def endsWithCI (s suf : List Char) : Bool := endsWithL (lowerL s) (lowerL suf)

/-- A filename ending in one of the `_b` suffixes cannot also end in one of
the `_a` suffixes: the shorter of two suffixes of the same list is a suffix
of the longer one, and no `_a` suffix is compatible with a `_b` suffix. -/
theorem not_suffix_a_of_suffix_b {f : List Char}
    (h : "_b.jpg".data <:+ f ∨ "_b.jpeg".data <:+ f) :
    ¬ ("_a.jpg".data <:+ f ∨ "_a.jpeg".data <:+ f) := by
  rintro (ha | ha) <;> rcases h with hb | hb <;>
    rcases List.suffix_or_suffix_of_suffix ha hb with h' | h' <;> revert h' <;> decide

theorem endsWith_or_eq_true {f s₁ s₂ : List Char}
    (h : s₁ <:+ f ∨ s₂ <:+ f) :
    (endsWithL f s₁ || endsWithL f s₂) = true := by
  cases h with
  | inl h => simp [endsWithL, List.isSuffixOf_iff_suffix, h]
  | inr h => simp [endsWithL, List.isSuffixOf_iff_suffix, h]

theorem endsWith_or_eq_false {f s₁ s₂ : List Char}
    (h : ¬ (s₁ <:+ f ∨ s₂ <:+ f)) :
    (endsWithL f s₁ || endsWithL f s₂) = false := by
  push_neg at h
  simp only [endsWithL, Bool.or_eq_false_iff]
  constructor <;> rw [← Bool.not_eq_true, List.isSuffixOf_iff_suffix]
  · exact h.1
  · exact h.2

/-- C4 (amended): role determination is total but case-SENSITIVE: a filename
ending in exactly `_a.jpg` or `_a.jpeg` maps to `front`, one ending in
exactly `_b.jpg` or `_b.jpeg` maps to `back`, and every other filename
(including upper-case variants such as `_A.jpg`) maps to `variant`. -/
theorem determine_role_total_case_sensitive (f : List Char) :
    (("_a.jpg".data <:+ f ∨ "_a.jpeg".data <:+ f) →
      determineFileTypeL f = "front".data) ∧
    (("_b.jpg".data <:+ f ∨ "_b.jpeg".data <:+ f) →
      determineFileTypeL f = "back".data) ∧
    ((¬ ("_a.jpg".data <:+ f ∨ "_a.jpeg".data <:+ f) ∧
      ¬ ("_b.jpg".data <:+ f ∨ "_b.jpeg".data <:+ f)) →
      determineFileTypeL f = "variant".data) := by
  refine ⟨?_, ?_, ?_⟩
  · intro h
    simp [determineFileTypeL, endsWith_or_eq_true h]
  · intro h
    simp [determineFileTypeL, endsWith_or_eq_true h,
      endsWith_or_eq_false (not_suffix_a_of_suffix_b h)]
  · intro h
    simp [determineFileTypeL, endsWith_or_eq_false h.1, endsWith_or_eq_false h.2]

/-- C4 (witness): instantiation at concrete filenames. -/
theorem determine_role_total_case_sensitive_witness :
    determineFileTypeL "x_a.jpg".data = "front".data ∧
    determineFileTypeL "x_b.jpeg".data = "back".data := by
  exact ⟨(determine_role_total_case_sensitive "x_a.jpg".data).1 (Or.inl (by decide)),
    (determine_role_total_case_sensitive "x_b.jpeg".data).2.1 (Or.inr (by decide))⟩

/-- C4 (counterexample): `photo_A.jpg` ends in `_a.jpg` up to letter case,
yet `_determine_file_type` returns `variant`, not `front` — role
determination in the source is case-sensitive, contradicting the claim. -/
theorem determine_role_ci_counterexample :
    endsWithCI "photo_A.jpg".data "_a.jpg".data = true ∧
    _determine_file_type "photo_A.jpg" = "variant" ∧
    ("variant" : String) ≠ "front" := by
  refine ⟨by decide, by decide, by decide⟩

/-! ## Pairing resolver: base-name extraction (claim C5)

`PhotoManager.extract_base_name` (src/app.py:272-286), identical to
`DatabaseManager._extract_base_name` (src/database.py:242-258).  The source
matches `^(\d{4}-\d{2}-\d{2}_)?(.+?)(_[ab])?\.jpe?g$` with `re.IGNORECASE`
(the second pattern is the first one without the optional date group, so it
can never match when the first fails) and returns the base group; on no
match it falls back to `os.path.splitext(filename)[0]`.  The regex engine is
embedded by its backtracking semantics: the greedy optional groups are tried
first, the lazy `(.+?)` group grows from one character upward. -/

/-- The characters of `.jpg`. -/
def extJpg : List Char := ['.', 'j', 'p', 'g']

/-- The characters of `.jpeg`. -/
def extJpeg : List Char := ['.', 'j', 'p', 'e', 'g']

/-- The tail literal `\.jpe?g$` under IGNORECASE. -/
def isExtL (r : List Char) : Bool :=
  lowerL r == extJpg || lowerL r == extJpeg

/-- Does `r` match `(_[ab])?\.jpe?g$` (IGNORECASE)?  The greedy optional
suffix group is tried first; either way the lazy base group ends here.  (On
lists shorter than two characters only the extension alternative can
apply.) -/
def splitWorks : List Char → Bool
  | c₁ :: c₂ :: rs =>
    isExtL (c₁ :: c₂ :: rs) ||
    (c₁ == '_' && (c₂.toLower == 'a' || c₂.toLower == 'b') && isExtL rs)
  | r => isExtL r

/-- Backtracking for `(.+?)(_[ab])?\.jpe?g$`: the lazy group takes at least
one character and the shortest base for which the remainder matches wins.
Returns the text captured by the base group. -/
def findBase (acc : List Char) : List Char → Option (List Char)
  | [] => none
  | c :: rs =>
    if splitWorks rs then some (acc ++ [c]) else findBase (acc ++ [c]) rs

/-- The leading group `\d{4}-\d{2}-\d{2}_` (11 characters). -/
def isDateMarkL (l : List Char) : Bool :=
  l.length == 11 &&
  (match l.get? 0 with | some c => c.isDigit | none => false) &&
  (match l.get? 1 with | some c => c.isDigit | none => false) &&
  (match l.get? 2 with | some c => c.isDigit | none => false) &&
  (match l.get? 3 with | some c => c.isDigit | none => false) &&
  l.get? 4 == some '-' &&
  (match l.get? 5 with | some c => c.isDigit | none => false) &&
  (match l.get? 6 with | some c => c.isDigit | none => false) &&
  l.get? 7 == some '-' &&
  (match l.get? 8 with | some c => c.isDigit | none => false) &&
  (match l.get? 9 with | some c => c.isDigit | none => false) &&
  l.get? 10 == some '_'

/-- The full first pattern: the greedy optional date group is tried first and
backtracked to empty when the remainder cannot match. -/
def extractCore (s : List Char) : Option (List Char) :=
  if isDateMarkL (s.take 11) then
    match findBase [] (s.drop 11) with
    | some b => some b
    | none => findBase [] s
  else findBase [] s

/-- `extract_base_name(filename)` over characters: regex patterns, then the
`os.path.splitext` fallback. -/
def extractBaseNameL (s : List Char) : List Char :=
  match extractCore s with
  | some b => b
  | none => splitextStemL s

/-- String-level wrapper keeping the source name. -/
def extract_base_name (filename : String) : String :=
  ⟨extractBaseNameL filename.data⟩

/-- Does `t` end with `_a` or `_b` up to letter case? -/
def endsAB : List Char → Bool
  | [u, a] => u == '_' && (a.toLower == 'a' || a.toLower == 'b')
  | _ :: c :: cs => endsAB (c :: cs)
  | _ => false

/-- The stem/extension split induced by the image-extension pattern: `some`
exactly when the filename ends in `.jpg`/`.jpeg` up to letter case.  (The
two suffixes are mutually exclusive, so the split is unambiguous.) -/
def stemExt? (s : List Char) : Option (List Char × List Char) :=
  if extJpeg.isSuffixOf (lowerL s) then
    some (s.take (s.length - 5), s.drop (s.length - 5))
  else if extJpg.isSuffixOf (lowerL s) then
    some (s.take (s.length - 4), s.drop (s.length - 4))
  else none

/-- Modelled from the claim's words, for comparison with the source: strip a
leading `YYYY-MM-DD_` prefix if present, then a trailing `_a`/`_b` suffix
(case-insensitive) if present, then the extension; fall back to the
extension-stripped filename when the image-extension pattern does not
match. -/
def specExtractBaseName (s : List Char) : List Char :=
  match stemExt? s with
  | none => splitextStemL s
  | some (stem, _) =>
    let t := if isDateMarkL (stem.take 11) then stem.drop 11 else stem
    if endsAB t then t.take (t.length - 2) else t

/-- Strip one trailing `_a`/`_b` (any letter case) only when at least one
character precedes it — the lazy base group must stay nonempty. -/
def stripAB (t : List Char) : List Char :=
  if endsAB t && decide (3 ≤ t.length) then t.take (t.length - 2) else t

/-- The amended specification function: like `specExtractBaseName` but the
date prefix is stripped only when at least one character remains before the
optional suffix and extension, the suffix is stripped only when at least one
character precedes it, and a filename with an empty base before the
extension falls back to the extension-stripped filename. -/
def specExtractBaseNameAmended (s : List Char) : List Char :=
  match stemExt? s with
  | none => splitextStemL s
  | some (stem, _) =>
    if stem = [] then splitextStemL s
    else
      let t := if isDateMarkL (stem.take 11) && decide (12 ≤ stem.length) then
        stem.drop 11 else stem
      stripAB t

example : extractBaseNameL "2024-01-05_vacation_a.jpg".data = "vacation".data := by decide
example : extractBaseNameL "vacation.jpg".data = "vacation".data := by decide
example : extractBaseNameL "_a.jpg".data = "_a".data := by decide
example : extractBaseNameL "2024-01-05_.jpg".data = "2024-01-05_".data := by decide
example : extractBaseNameL "2024-01-05__a.jpg".data = "_a".data := by decide
example : extractBaseNameL "..jpg".data = ".".data := by decide
example : extractBaseNameL ".jpg".data = ".jpg".data := by decide
example : extractBaseNameL "x_A.JPG".data = "x".data := by decide
example : extractBaseNameL "foo_a_b.jpg".data = "foo_a".data := by decide
example : extractBaseNameL "vacation.png".data = "vacation".data := by decide
example : extractBaseNameL "2024-01-05_a.jpg".data = "a".data := by decide
example : extractBaseNameL "__a.jpg".data = "_".data := by decide
example : specExtractBaseName "_a.jpg".data = [] := by decide
example : specExtractBaseNameAmended "_a.jpg".data = "_a".data := by decide
example : specExtractBaseNameAmended "2024-01-05_vacation_a.jpg".data = "vacation".data := by decide

/-! ### Characterising the regex match -/

/-- If `c` lowers to `d` and `e` does not, then `c ≠ e`. -/
theorem ne_of_toLower_eq {c d e : Char} (h : c.toLower = d) (hne : e.toLower ≠ d) :
    c ≠ e := by
  rintro rfl; exact hne h

/-- An extension is one of the two literals up to letter case. -/
theorem isExtL_shape {ext : List Char} (h : isExtL ext = true) :
    (∃ c₁ c₂ c₃ c₄, ext = [c₁, c₂, c₃, c₄] ∧
      c₁.toLower = '.' ∧ c₂.toLower = 'j' ∧ c₃.toLower = 'p' ∧ c₄.toLower = 'g') ∨
    (∃ c₁ c₂ c₃ c₄ c₅, ext = [c₁, c₂, c₃, c₄, c₅] ∧
      c₁.toLower = '.' ∧ c₂.toLower = 'j' ∧ c₃.toLower = 'p' ∧
      c₄.toLower = 'e' ∧ c₅.toLower = 'g') := by
  simp only [isExtL, Bool.or_eq_true, beq_iff_eq, extJpg, extJpeg] at h
  rcases h with h | h
  · have hl : ext.length = 4 := by
      have := congrArg List.length h
      simpa [lowerL] using this
    obtain ⟨c₁, c₂, c₃, c₄, rfl⟩ : ∃ a b c d, ext = [a, b, c, d] := by
      rcases ext with _ | ⟨a, _ | ⟨b, _ | ⟨c, _ | ⟨d, _ | ⟨e, tl⟩⟩⟩⟩⟩ <;>
        simp only [List.length_cons, List.length_nil] at hl <;>
        first
          | omega
          | exact ⟨a, b, c, d, rfl⟩
    simp only [lowerL, List.map, List.cons.injEq, and_true] at h
    exact Or.inl ⟨c₁, c₂, c₃, c₄, rfl, h.1, h.2.1, h.2.2.1, h.2.2.2⟩
  · have hl : ext.length = 5 := by
      have := congrArg List.length h
      simpa [lowerL] using this
    obtain ⟨c₁, c₂, c₃, c₄, c₅, rfl⟩ : ∃ a b c d e, ext = [a, b, c, d, e] := by
      rcases ext with _ | ⟨a, _ | ⟨b, _ | ⟨c, _ | ⟨d, _ | ⟨e, _ | ⟨f, tl⟩⟩⟩⟩⟩⟩ <;>
        simp only [List.length_cons, List.length_nil] at hl <;>
        first
          | omega
          | exact ⟨a, b, c, d, e, rfl⟩
    simp only [lowerL, List.map, List.cons.injEq, and_true] at h
    exact Or.inr ⟨c₁, c₂, c₃, c₄, c₅, rfl, h.1, h.2.1, h.2.2.1, h.2.2.2.1, h.2.2.2.2⟩

/-- The length of an extension is 4 or 5. -/
theorem isExtL_length {ext : List Char} (h : isExtL ext = true) :
    ext.length = 4 ∨ ext.length = 5 := by
  rcases isExtL_shape h with ⟨_, _, _, _, rfl, _⟩ | ⟨_, _, _, _, _, rfl, _⟩ <;> simp

/-- No character of an extension is an underscore (rules out accidental
date-group and suffix-group matches inside the extension). -/
theorem isExtL_no_underscore {ext : List Char} (h : isExtL ext = true) {c : Char}
    (hc : c ∈ ext) : c ≠ '_' := by
  rcases isExtL_shape h with ⟨c₁, c₂, c₃, c₄, rfl, h₁, h₂, h₃, h₄⟩ |
    ⟨c₁, c₂, c₃, c₄, c₅, rfl, h₁, h₂, h₃, h₄, h₅⟩ <;>
    simp only [List.mem_cons, List.not_mem_nil, or_false] at hc
  · rcases hc with rfl | rfl | rfl | rfl
    · exact ne_of_toLower_eq h₁ (by decide)
    · exact ne_of_toLower_eq h₂ (by decide)
    · exact ne_of_toLower_eq h₃ (by decide)
    · exact ne_of_toLower_eq h₄ (by decide)
  · rcases hc with rfl | rfl | rfl | rfl | rfl
    · exact ne_of_toLower_eq h₁ (by decide)
    · exact ne_of_toLower_eq h₂ (by decide)
    · exact ne_of_toLower_eq h₃ (by decide)
    · exact ne_of_toLower_eq h₄ (by decide)
    · exact ne_of_toLower_eq h₅ (by decide)

/-- Appending an extension to a nonempty list never yields an extension. -/
theorem isExtL_append {u ext : List Char} (hext : isExtL ext = true) :
    isExtL (u ++ ext) = true ↔ u = [] := by
  constructor
  · intro h
    cases u with
    | nil => rfl
    | cons a u' =>
      exfalso
      have hlt := isExtL_length h
      simp only [List.cons_append, List.length_cons, List.length_append] at hlt
      rcases isExtL_length hext with he | he <;> rcases hlt with ht | ht
      · omega
      · -- total 5, extension 4: u' must be empty, then the extension's dot
        -- would have to sit where a `j` is required
        have hu : u' = [] := List.length_eq_zero.mp (by omega)
        subst hu
        rcases isExtL_shape hext with ⟨d₁, d₂, d₃, d₄, rfl, g₁, g₂, g₃, g₄⟩ |
          ⟨d₁, d₂, d₃, d₄, d₅, rfl, g₁, g₂, g₃, g₄, g₅⟩
        · rcases isExtL_shape h with ⟨c₁, c₂, c₃, c₄, heq, f₁, f₂, f₃, f₄⟩ |
            ⟨c₁, c₂, c₃, c₄, c₅, heq, f₁, f₂, f₃, f₄, f₅⟩
          · exact absurd (congrArg List.length heq) (by simp)
          · simp only [List.cons_append, List.nil_append, List.cons.injEq] at heq
            obtain ⟨-, h₂, -⟩ := heq
            rw [← h₂] at f₂
            rw [g₁] at f₂
            exact absurd f₂ (by decide)
        · simp at he
      · omega
      · omega
  · rintro rfl
    simpa using hext

/-- Characterisation of `splitWorks` on a list ending in an extension: the
part before the extension is empty or is exactly an `_a`/`_b` suffix group
(any letter case). -/
theorem splitWorks_append {u ext : List Char} (hext : isExtL ext = true) :
    splitWorks (u ++ ext) = true ↔
      u = [] ∨ ∃ a, u = ['_', a] ∧ (a.toLower = 'a' ∨ a.toLower = 'b') := by
  constructor
  · intro h
    rcases u with _ | ⟨a, _ | ⟨b, u'⟩⟩
    · exact Or.inl rfl
    · -- u = [a] : the suffix alternative would need an underscore and an
      -- `a`/`b` where the extension starts with a dot and a `j`
      exfalso
      rcases isExtL_shape hext with ⟨d₁, d₂, d₃, d₄, hd, g₁, g₂, g₃, g₄⟩ |
        ⟨d₁, d₂, d₃, d₄, d₅, hd, g₁, g₂, g₃, g₄, g₅⟩ <;>
      · subst hd
        simp only [List.cons_append, List.nil_append, splitWorks,
          Bool.or_eq_true, Bool.and_eq_true, beq_iff_eq] at h
        rcases h with h | ⟨⟨-, hab⟩, -⟩
        · have h' := (@isExtL_append [a] _ hext).mp (by simpa using h)
          simp at h'
        · rcases hab with hab | hab <;> · rw [g₁] at hab; exact absurd hab (by decide)
    · -- u = a :: b :: u' : the suffix alternative forces u' = []
      have h' : splitWorks (a :: b :: (u' ++ ext)) = true := by simpa using h
      simp only [splitWorks, Bool.or_eq_true, Bool.and_eq_true, beq_iff_eq] at h'
      rcases h' with h' | ⟨⟨ha, hab⟩, hrest⟩
      · exfalso
        have h'' : isExtL ((a :: b :: u') ++ ext) = true := by simpa using h'
        have := (isExtL_append hext).mp h''
        simp at this
      · have hu : u' = [] := (isExtL_append hext).mp hrest
        subst hu
        subst ha
        exact Or.inr ⟨b, rfl, hab⟩
  · rintro (rfl | ⟨a, rfl, hab⟩)
    · rcases isExtL_shape hext with ⟨d₁, d₂, d₃, d₄, rfl, -⟩ |
        ⟨d₁, d₂, d₃, d₄, d₅, rfl, -⟩ <;>
      · simp only [List.nil_append, splitWorks, Bool.or_eq_true]
        exact Or.inl hext
    · rcases hab with hab | hab <;>
        rcases isExtL_shape hext with ⟨d₁, d₂, d₃, d₄, rfl, -⟩ |
          ⟨d₁, d₂, d₃, d₄, d₅, rfl, -⟩ <;>
      · simp only [List.cons_append, List.nil_append, splitWorks,
          Bool.or_eq_true, Bool.and_eq_true, beq_iff_eq, hab]
        simp only [← hab]
        simp [hab, hext]

/-- A list whose length is neither 4 nor 5 is no extension. -/
theorem isExtL_eq_false_of_length {r : List Char} (h4 : r.length ≠ 4)
    (h5 : r.length ≠ 5) : isExtL r = false := by
  by_contra hx
  rw [Bool.not_eq_false] at hx
  rcases isExtL_length hx with h | h
  · exact h4 h
  · exact h5 h

/-- `findBase` fails on a bare extension: the lazy base group needs at least
one character. -/
theorem findBase_ext_none {ext : List Char} (hext : isExtL ext = true) (acc : List Char) :
    findBase acc ext = none := by
  rcases isExtL_shape hext with ⟨d₁, d₂, d₃, d₄, rfl, g₁, g₂, g₃, g₄⟩ |
    ⟨d₁, d₂, d₃, d₄, d₅, rfl, g₁, g₂, g₃, g₄, g₅⟩
  · have e3 : isExtL [d₂, d₃, d₄] = false := isExtL_eq_false_of_length (by simp) (by simp)
    have e2 : isExtL [d₃, d₄] = false := isExtL_eq_false_of_length (by simp) (by simp)
    have e1 : isExtL [d₄] = false := isExtL_eq_false_of_length (by simp) (by simp)
    have e0 : isExtL ([] : List Char) = false := by decide
    simp [findBase, splitWorks, e3, e2, e1, e0]
  · have e4 : isExtL [d₂, d₃, d₄, d₅] = false := by
      -- its lowering starts with `j`, not `.`
      by_contra hx
      rw [Bool.not_eq_false] at hx
      rcases isExtL_shape hx with ⟨e₁, e₂, e₃, e₄, heq, k₁, -, -, -⟩ |
        ⟨e₁, e₂, e₃, e₄, e₅, heq, k₁, -, -, -, -⟩
      · simp only [List.cons.injEq, and_true] at heq
        obtain ⟨h1, -⟩ := heq
        rw [← h1] at k₁
        rw [g₂] at k₁
        exact absurd k₁ (by decide)
      · exact absurd (congrArg List.length heq) (by simp)
    have e3 : isExtL [d₃, d₄, d₅] = false := isExtL_eq_false_of_length (by simp) (by simp)
    have e2 : isExtL [d₄, d₅] = false := isExtL_eq_false_of_length (by simp) (by simp)
    have e1 : isExtL [d₅] = false := isExtL_eq_false_of_length (by simp) (by simp)
    have e0 : isExtL ([] : List Char) = false := by decide
    have hne : (d₂ == '_') = false := by
      simp only [beq_eq_false_iff_ne, ne_eq]
      exact ne_of_toLower_eq g₂ (by decide)
    simp [findBase, splitWorks, e4, e3, e2, e1, e0, hne]

/-- Pushing `stripAB` under a head character: legitimate whenever the tail is
nonempty and is not itself a bare suffix group. -/
theorem stripAB_cons {c : Char} {t : List Char} (ht : t ≠ [])
    (hnot : ¬ ∃ a, t = ['_', a] ∧ (a.toLower = 'a' ∨ a.toLower = 'b')) :
    stripAB (c :: t) = c :: stripAB t := by
  rcases t with _ | ⟨u, _ | ⟨v, _ | ⟨w, t'⟩⟩⟩
  · exact absurd rfl ht
  · simp [stripAB, endsAB]
  · have hb : (u == '_' && (v.toLower == 'a' || v.toLower == 'b')) = false := by
      by_contra hx
      rw [Bool.not_eq_false, Bool.and_eq_true, beq_iff_eq] at hx
      obtain ⟨rfl, hab⟩ := hx
      refine hnot ⟨v, rfl, ?_⟩
      simpa using hab
    simp [stripAB, endsAB, hb]
  · have heq : endsAB (c :: u :: v :: w :: t') = endsAB (u :: v :: w :: t') := rfl
    by_cases he : endsAB (u :: v :: w :: t') = true
    · have d1 : decide (3 ≤ (c :: u :: v :: w :: t').length) = true :=
        decide_eq_true (by simp)
      have d2 : decide (3 ≤ (u :: v :: w :: t').length) = true :=
        decide_eq_true (by simp)
      simp only [stripAB, heq, he, d1, d2, Bool.true_and, if_true]
      simp only [List.length_cons]
      rw [show t'.length + 1 + 1 + 1 + 1 - 2 = (t'.length + 1 + 1 + 1 - 2) + 1 by omega]
      rw [List.take_succ_cons]
    · rw [Bool.not_eq_true] at he
      simp only [stripAB, heq, he, Bool.false_and, if_neg (by simp : ¬(false = true))]

/-- Any successful `splitWorks` list decomposes as an optional suffix group
followed by an extension. -/
theorem splitWorks_decomp {r : List Char} (h : splitWorks r = true) :
    ∃ u ext, r = u ++ ext ∧ isExtL ext = true := by
  rcases r with _ | ⟨c₁, _ | ⟨c₂, rs⟩⟩
  · exact absurd h (by decide)
  · have h' : isExtL [c₁] = true := by simpa [splitWorks] using h
    have := @isExtL_eq_false_of_length [c₁] (by simp) (by simp)
    rw [h'] at this
    exact absurd this (by decide)
  · simp only [splitWorks, Bool.or_eq_true, Bool.and_eq_true, beq_iff_eq] at h
    rcases h with h | ⟨⟨rfl, -⟩, hrest⟩
    · exact ⟨[], c₁ :: c₂ :: rs, rfl, h⟩
    · exact ⟨['_', c₂], rs, rfl, hrest⟩

/-- A successful `findBase` input decomposes as something followed by an
extension. -/
theorem findBase_some_ext {t : List Char} :
    ∀ {acc b : List Char}, findBase acc t = some b →
      ∃ u ext, t = u ++ ext ∧ isExtL ext = true := by
  induction t with
  | nil => intro acc b h; exact absurd h (by simp [findBase])
  | cons c rs ih =>
    intro acc b h
    rw [findBase] at h
    by_cases hs : splitWorks rs = true
    · obtain ⟨u, ext, rfl, hext⟩ := splitWorks_decomp hs
      exact ⟨c :: u, ext, rfl, hext⟩
    · rw [if_neg hs] at h
      obtain ⟨u, ext, rfl, hext⟩ := ih h
      exact ⟨c :: u, ext, rfl, hext⟩

/-- The central backtracking lemma: on `stem ++ ext` with a nonempty stem,
the lazy base group captures the stem minus at most one trailing suffix
group, and the suffix group is stripped exactly when at least one character
precedes it. -/
theorem findBase_append {ext : List Char} (hext : isExtL ext = true) :
    ∀ stem, stem ≠ [] → ∀ acc,
      findBase acc (stem ++ ext) = some (acc ++ stripAB stem) := by
  intro stem
  induction stem with
  | nil => intro h; exact absurd rfl h
  | cons c stem₂ ih =>
    intro _ acc
    rw [List.cons_append, findBase]
    by_cases hs : splitWorks (stem₂ ++ ext) = true
    · rw [if_pos hs]
      rcases (splitWorks_append hext).mp hs with rfl | ⟨a, rfl, hab⟩
      · have hst : stripAB [c] = [c] := by simp [stripAB, endsAB]
        rw [hst]
      · have hst : stripAB [c, '_', a] = [c] := by
          rcases hab with hab | hab <;> simp [stripAB, endsAB, hab]
        rw [hst]
    · rw [if_neg hs]
      have h2 : stem₂ ≠ [] := by
        rintro rfl
        exact hs ((splitWorks_append hext).mpr (Or.inl rfl))
      have hnot : ¬ ∃ a, stem₂ = ['_', a] ∧ (a.toLower = 'a' ∨ a.toLower = 'b') := by
        intro hx
        exact hs ((splitWorks_append hext).mpr (Or.inr hx))
      rw [ih h2 (acc ++ [c]), stripAB_cons h2 hnot]
      simp

/-- Dropping everything but a lowered literal suffix recovers the literal. -/
theorem drop_lower_literal {s w lit : List Char} (hw : lowerL s = w ++ lit) :
    lowerL (s.drop (s.length - lit.length)) = lit := by
  have hlen : w.length = s.length - lit.length := by
    have := congrArg List.length hw
    simp only [lowerL, List.length_map, List.length_append] at this
    omega
  simp only [lowerL, List.map_drop]
  rw [show s.map Char.toLower = w ++ lit from hw, ← hlen, List.drop_left]

/-- Decomposition given by `stemExt?`. -/
theorem stemExt?_eq_some {s stem ext : List Char} (h : stemExt? s = some (stem, ext)) :
    s = stem ++ ext ∧ isExtL ext = true := by
  unfold stemExt? at h
  by_cases h5 : extJpeg.isSuffixOf (lowerL s) = true
  · rw [if_pos h5] at h
    simp only [Option.some.injEq, Prod.mk.injEq] at h
    obtain ⟨rfl, rfl⟩ := h
    refine ⟨(List.take_append_drop _ s).symm, ?_⟩
    obtain ⟨w, hw⟩ := List.isSuffixOf_iff_suffix.mp h5
    have hlit := @drop_lower_literal _ _ extJpeg hw.symm
    simp only [extJpeg, List.length_cons, List.length_nil] at hlit
    simp only [isExtL, hlit]
    decide
  · rw [if_neg h5] at h
    by_cases h4 : extJpg.isSuffixOf (lowerL s) = true
    · rw [if_pos h4] at h
      simp only [Option.some.injEq, Prod.mk.injEq] at h
      obtain ⟨rfl, rfl⟩ := h
      refine ⟨(List.take_append_drop _ s).symm, ?_⟩
      obtain ⟨w, hw⟩ := List.isSuffixOf_iff_suffix.mp h4
      have hlit := @drop_lower_literal _ _ extJpg hw.symm
      simp only [extJpg, List.length_cons, List.length_nil] at hlit
      simp only [isExtL, hlit]
      decide
    · rw [if_neg h4] at h
      exact absurd h (by simp)

/-- A list ending in an extension has a stem/extension split. -/
theorem stemExt?_isSome_of_ext {s u ext : List Char} (hext : isExtL ext = true)
    (hs : s = u ++ ext) : stemExt? s ≠ none := by
  subst hs
  have hmap : lowerL (u ++ ext) = lowerL u ++ lowerL ext := by simp [lowerL]
  simp only [isExtL, Bool.or_eq_true, beq_iff_eq] at hext
  unfold stemExt?
  rcases hext with he | he
  · by_cases h5 : extJpeg.isSuffixOf (lowerL (u ++ ext)) = true
    · rw [if_pos h5]; simp
    · rw [if_neg h5]
      have h4 : extJpg.isSuffixOf (lowerL (u ++ ext)) = true := by
        rw [List.isSuffixOf_iff_suffix]
        exact ⟨lowerL u, by rw [← he, ← hmap]⟩
      rw [if_pos h4]; simp
  · have h5 : extJpeg.isSuffixOf (lowerL (u ++ ext)) = true := by
      rw [List.isSuffixOf_iff_suffix]
      exact ⟨lowerL u, by rw [← he, ← hmap]⟩
    rw [if_pos h5]; simp

/-- When the filename carries no image extension, the regex patterns fail. -/
theorem extractCore_eq_none {s : List Char} (hse : stemExt? s = none) :
    extractCore s = none := by
  have hfb : ∀ t w, s = w ++ t → findBase [] t = none := by
    intro t w hw
    cases hfbt : findBase [] t with
    | none => rfl
    | some b =>
      obtain ⟨u, ext, rfl, hext⟩ := findBase_some_ext hfbt
      exact absurd hse (stemExt?_isSome_of_ext hext (by rw [hw, List.append_assoc]))
  have h1 : findBase [] (s.drop 11) = none :=
    hfb (s.drop 11) (s.take 11) (List.take_append_drop 11 s).symm
  have h2 : findBase [] s = none := hfb s [] rfl
  simp only [extractCore, h1, h2]
  split <;> rfl

/-- Behaviour of the regex match on a decomposed filename. -/
theorem extractCore_append {stem ext : List Char} (hext : isExtL ext = true) :
    extractCore (stem ++ ext) =
      if stem = [] then none
      else if isDateMarkL (stem.take 11) && decide (12 ≤ stem.length) then
        some (stripAB (stem.drop 11))
      else some (stripAB stem) := by
  by_cases h0 : stem = []
  · subst h0
    rw [if_pos rfl]
    simp only [List.nil_append]
    have hlen : ext.length ≤ 11 := by
      rcases isExtL_length hext with h | h <;> omega
    have htk : ext.take 11 = ext := List.take_of_length_le hlen
    have hb : (ext.length == 11) = false := by
      simp only [beq_eq_false_iff_ne, ne_eq]
      rcases isExtL_length hext with h | h <;> omega
    have hdm : isDateMarkL (ext.take 11) = false := by
      rw [htk]
      simp [isDateMarkL, hb]
    simp only [extractCore, hdm, Bool.false_eq_true, if_false]
    exact findBase_ext_none hext []
  · rw [if_neg h0]
    by_cases h11 : 11 ≤ stem.length
    · have htake : (stem ++ ext).take 11 = stem.take 11 :=
        List.take_append_of_le_length h11
      have hdrop : (stem ++ ext).drop 11 = stem.drop 11 ++ ext :=
        List.drop_append_of_le_length h11
      by_cases hdm : isDateMarkL (stem.take 11) = true
      · by_cases h12 : 12 ≤ stem.length
        · have hne : stem.drop 11 ≠ [] := by
            intro hx
            have := congrArg List.length hx
            simp only [List.length_drop, List.length_nil] at this
            omega
          simp only [extractCore, htake, hdm, if_true, hdrop]
          rw [findBase_append hext _ hne []]
          simp only [List.nil_append]
          rw [if_pos (by simp [hdm, h12])]
        · have hdrop0 : stem.drop 11 = [] := List.drop_eq_nil_of_le (by omega)
          simp only [extractCore, htake, hdm, if_true, hdrop, hdrop0, List.nil_append]
          rw [findBase_ext_none hext]
          rw [findBase_append hext stem h0 []]
          simp only [List.nil_append]
          rw [if_neg (by simp [hdm]; omega)]
      · rw [Bool.not_eq_true] at hdm
        simp only [extractCore, htake, hdm, Bool.false_eq_true, if_false]
        rw [findBase_append hext stem h0 []]
        simp only [List.nil_append]
        rw [if_neg (by simp [hdm])]
    · have hdm : isDateMarkL ((stem ++ ext).take 11) = false := by
        by_cases hlen : (stem ++ ext).length < 11
        · have hne : ((stem ++ ext).take 11).length ≠ 11 := by
            rw [List.length_take]
            omega
          have hb : (((stem ++ ext).take 11).length == 11) = false := by
            simpa using hne
          simp only [isDateMarkL, hb, Bool.false_and]
        · push_neg at hlen
          by_contra hx
          rw [Bool.not_eq_false] at hx
          simp only [isDateMarkL, Bool.and_eq_true, beq_iff_eq] at hx
          have hg : (stem ++ ext).get? 10 = some '_' := by
            rw [← List.get?_take (by omega : (10 : Nat) < 11)]
            exact hx.2
          rw [List.get?_append_right (by omega)] at hg
          exact isExtL_no_underscore hext (List.get?_mem hg) rfl
      simp only [extractCore, hdm, Bool.false_eq_true, if_false]
      rw [findBase_append hext stem h0 []]
      simp only [List.nil_append]
      rw [if_neg ?_]
      intro hc
      rw [Bool.and_eq_true] at hc
      have := of_decide_eq_true hc.2
      omega

/-- C5 (amended): for every filename, `extract_base_name` agrees with the
spec-worded stripping procedure amended so that the base identifier is never
empty: the leading `YYYY-MM-DD_` prefix is stripped only when at least one
character remains before the optional suffix and the extension, the trailing
`_a`/`_b` suffix (case-insensitive) is stripped only when at least one
character precedes it, and a filename whose base before the extension would
be empty falls back to the extension-stripped filename; the claim's two
examples hold. -/
theorem extract_base_name_amended_characterization :
    (∀ s : List Char, extractBaseNameL s = specExtractBaseNameAmended s) ∧
    extract_base_name "2024-01-05_vacation_a.jpg" = "vacation" ∧
    extract_base_name "vacation.jpg" = "vacation" := by
  refine ⟨?_, by decide, by decide⟩
  intro s
  unfold extractBaseNameL specExtractBaseNameAmended
  cases hse : stemExt? s with
  | none => rw [extractCore_eq_none hse]
  | some p =>
    obtain ⟨stem, ext⟩ := p
    obtain ⟨hdecomp, hext⟩ := stemExt?_eq_some hse
    rw [hdecomp, extractCore_append hext]
    dsimp only
    by_cases h0 : stem = []
    · simp [h0]
    · rw [if_neg h0, if_neg h0]
      by_cases hc : (isDateMarkL (stem.take 11) && decide (12 ≤ stem.length)) = true
      · rw [if_pos hc, if_pos hc]
      · rw [if_neg hc, if_neg hc]

/-- C5 (counterexample): on `_a.jpg` the source keeps the whole stem `_a` —
the lazy base group must be nonempty, so the `_a` suffix is not stripped —
while the claim's stripping procedure (spec-worded `specExtractBaseName`)
would return the empty base. -/
theorem extract_base_name_spec_counterexample :
    extract_base_name "_a.jpg" = "_a" ∧
    specExtractBaseName "_a.jpg".data = "".data ∧
    ("_a" : String) ≠ "" := by
  refine ⟨by decide, by decide, by decide⟩

/-! ## Transactional corrector (claims C1, C2)

`PhotoManager.update_photo_date` (src/app.py:296-331) and
`PhotoManager.move_photo_to_processed` (src/app.py:447-507) together with
their helpers (src/app.py:104-129).  File contents are abstract fingerprints;
`sha256` is modelled as the identity fingerprint (injective on contents).
External outcomes (`os.utime` success, the bytes produced by the EXIF
rewrite, the PIL decoder verdict, the random/timestamp suffixes of
`secrets.token_hex` / `time.time`, database success) are oracle inputs. -/

/-- Decimal digit characters, via an if-chain for easy case proofs. -/
def digitCharL (n : Nat) : Char :=
  if n = 0 then '0' else if n = 1 then '1' else if n = 2 then '2'
  else if n = 3 then '3' else if n = 4 then '4' else if n = 5 then '5'
  else if n = 6 then '6' else if n = 7 then '7' else if n = 8 then '8' else '9'

/-- Decimal rendering, fuel-based so that it reduces by iota (the fuel
`n + 1` always exceeds the number of digits of `n`). -/
def natStrLAux : Nat → Nat → List Char
  | 0, _ => []
  | fuel + 1, n =>
    if n < 10 then [digitCharL n]
    else natStrLAux fuel (n / 10) ++ [digitCharL (n % 10)]

/-- Decimal rendering of a natural number (C `%d` / Python `str(int)`). -/
def natStrL (n : Nat) : List Char := natStrLAux (n + 1) n

/-- `strftime('%m')`-style two-digit zero padding. -/
def pad2L (n : Nat) : List Char :=
  if n < 10 then '0' :: natStrL n else natStrL n

/-- A parsed `%Y-%m-%d` date. -/
structure PDate where
  year : Nat
  month : Nat
  day : Nat
deriving DecidableEq

/-- Digit run to number, most significant first. -/
def digitsToNat (l : List Char) : Nat :=
  l.foldl (fun acc c => acc * 10 + (c.toNat - 48)) 0

/-- `str.split('-')` over characters. -/
def splitOnDashL : List Char → List (List Char)
  | [] => [[]]
  | c :: rest =>
    if c = '-' then [] :: splitOnDashL rest
    else
      match splitOnDashL rest with
      | g :: gs => (c :: g) :: gs
      | [] => [[c]]

/-- `datetime.strptime(s, '%Y-%m-%d')`: three dash-separated digit runs of
widths 1-4, 1-2 and 1-2, with the month in 1..12 and the day in 1..31.  (The
per-month day-count and leap-year checks of the library are simplified to
the 1..31 range; no claim depends on the acceptance of a specific calendar
date, and both call sites parse the same string with the same function.) -/
def parseDate (s : String) : Option PDate :=
  match splitOnDashL s.data with
  | [ys, ms, ds] =>
    if ys ≠ [] ∧ ys.length ≤ 4 ∧ ys.all Char.isDigit ∧
        ms ≠ [] ∧ ms.length ≤ 2 ∧ ms.all Char.isDigit ∧
        ds ≠ [] ∧ ds.length ≤ 2 ∧ ds.all Char.isDigit then
      let y := digitsToNat ys
      let m := digitsToNat ms
      let d := digitsToNat ds
      if 1 ≤ m ∧ m ≤ 12 ∧ 1 ≤ d ∧ d ≤ 31 then some ⟨y, m, d⟩ else none
    else none
  | _ => none

/-- `date_obj.strftime('%Y-%m-%d')`. -/
def dateStrOfL (d : PDate) : List Char :=
  natStrL d.year ++ '-' :: (pad2L d.month ++ '-' :: pad2L d.day)

/-- `os.path.basename` on strings. -/
def basename (p : String) : String := ⟨basenameL p.data⟩

/-- Oracles for `move_photo_to_processed`: the per-attempt
`secrets.token_hex(3)` values and the `str(int(time.time() * 1000))`
fallback. -/
structure MoveEnv where
  randSuffix : Nat → String
  timeSuffix : String

/-- The date-prefix normalisation of the destination filename
(src/app.py:462-471). -/
def toProcessedName (datePre original : String) : String :=
  if startsWithL original.data (datePre ++ "_").data then original
  else if 10 < original.length ∧ original.data.get? 10 = some '_' ∧
      (original.data.take 10).count '-' = 2 then
    datePre ++ "_" ++ ⟨original.data.drop 11⟩
  else datePre ++ "_" ++ original

/-- The collision loop (src/app.py:477-496): up to 100 random-suffix
attempts, then the timestamp suffix without a further existence check.
`fuel` counts remaining attempts; the attempt index is `100 - fuel`. -/
def findUniqueName (fs : FS) (dir stem ext : String) (env : MoveEnv) : Nat → String
  | 0 => stem ++ "_" ++ env.timeSuffix ++ ext
  | fuel + 1 =>
    let cand := stem ++ "_" ++ env.randSuffix (100 - (fuel + 1)) ++ ext
    if fs (dir ++ "/" ++ cand) = none then cand
    else findUniqueName fs dir stem ext env fuel

/-- The `year/month` destination directory. -/
def moveDir (processedDir : String) (d : PDate) : String :=
  processedDir ++ "/" ++ ⟨natStrL d.year⟩ ++ "/" ++ ⟨pad2L d.month⟩

/-- First candidate destination path. -/
def baseCand (processedDir : String) (filepath : String) (d : PDate) : String :=
  moveDir processedDir d ++ "/" ++ toProcessedName ⟨dateStrOfL d⟩ (basename filepath)

/-- The `i`-th random-suffix candidate destination path. -/
def randCand (processedDir : String) (env : MoveEnv) (filepath : String) (d : PDate)
    (i : Nat) : String :=
  moveDir processedDir d ++ "/" ++
    (⟨splitextStemL (toProcessedName ⟨dateStrOfL d⟩ (basename filepath)).data⟩ ++ "_" ++
      env.randSuffix i ++ ⟨splitextExtL (toProcessedName ⟨dateStrOfL d⟩ (basename filepath)).data⟩)

/-- The timestamp-suffix fallback destination path. -/
def tsCand (processedDir : String) (env : MoveEnv) (filepath : String) (d : PDate) : String :=
  moveDir processedDir d ++ "/" ++
    (⟨splitextStemL (toProcessedName ⟨dateStrOfL d⟩ (basename filepath)).data⟩ ++ "_" ++
      env.timeSuffix ++ ⟨splitextExtL (toProcessedName ⟨dateStrOfL d⟩ (basename filepath)).data⟩)

/-- The destination path `move_photo_to_processed` selects. -/
def moveDest (processedDir : String) (fs : FS) (env : MoveEnv) (filepath : String)
    (d : PDate) : String :=
  let dir := moveDir processedDir d
  let baseFilename := toProcessedName ⟨dateStrOfL d⟩ (basename filepath)
  if fs (dir ++ "/" ++ baseFilename) = none then dir ++ "/" ++ baseFilename
  else
    dir ++ "/" ++ findUniqueName fs dir ⟨splitextStemL baseFilename.data⟩
      ⟨splitextExtL baseFilename.data⟩ env 100

/-- Outcome of a relocation. -/
structure MoveOut where
  fs : FS
  newPath : String

/-- `move_photo_to_processed(filepath, date)` (src/app.py:447-507): every
internal exception is caught and the original path returned with the
filesystem unchanged (a failed `strptime`, or `shutil.move` on a missing
source); otherwise the file is moved to the selected destination —
`shutil.move` replaces an existing regular file at the destination. -/
def move_photo_to_processed (processedDir : String) (fs : FS) (env : MoveEnv)
    (filepath date : String) : MoveOut :=
  match parseDate date with
  | none => ⟨fs, filepath⟩
  | some d =>
    let dest := moveDest processedDir fs env filepath d
    match fs filepath with
    | none => ⟨fs, filepath⟩
    | some c => ⟨(fs.set filepath none).set dest (some c), dest⟩

/-- Oracles for one run of `update_photo_date`: `os.utime` success, the
bytes the EXIF rewrite produces (`update_exif_date` catches its own
exceptions, so it is a total transformation), the decoder verdict of
`Image.verify` used when the bytes changed, and catalog-update success. -/
structure CorrEnv where
  move : MoveEnv
  utimeOk : Bool
  exifFn : Nat → Nat
  imageValid : Bool
  markOk : Bool

/-- `calculate_file_hash` (src/app.py:104-112): `none` when unreadable;
sha256 is modelled as the identity fingerprint. -/
def calculate_file_hash (fs : FS) (p : String) : Option Nat := fs p

/-- `create_backup` (src/app.py:114-117): `shutil.copy2` to the sibling
backup path. -/
def create_backup (fs : FS) (p : String) : FS :=
  fs.set (p ++ ".backup") (fs p)

/-- `verify_file_integrity` (src/app.py:119-121). -/
def verify_file_integrity (fs : FS) (p : String) (h : Nat) : Bool :=
  fs p == some h

/-- `restore_from_backup` (src/app.py:123-129): copy the backup over the
file and delete the backup, when the backup exists. -/
def restore_from_backup (fs : FS) (p : String) : FS :=
  match fs (p ++ ".backup") with
  | some b => (fs.set p (some b)).set (p ++ ".backup") none
  | none => fs

/-- The protected block of `update_photo_date` (src/app.py:304-324): the
filesystem state at the raise point and the exception text are carried to
the handler. -/
def updateSteps (processedDir : String) (env : CorrEnv) (fs : FS)
    (filepath newDate : String) (origHash : Nat) : Except (FS × String) FS :=
  match parseDate newDate with
  | none => .error (fs, "strptime: invalid date")
  | some _ =>
    if env.utimeOk = false then .error (fs, "utime failed")
    else
      let fs2 := fs.set filepath ((fs filepath).map env.exifFn)
      if verify_file_integrity fs2 filepath origHash || env.imageValid then
        let mv := move_photo_to_processed processedDir fs2 env.move filepath newDate
        if env.markOk = false then .error (mv.fs, "database error")
        else
          let fs4 := if (mv.fs (filepath ++ ".backup")).isSome then
              mv.fs.set (filepath ++ ".backup") none
            else mv.fs
          .ok fs4
      else .error (fs2, "image verify failed")

/-- Result of `update_photo_date`: final filesystem, success flag,
message. -/
structure UpdResult where
  fs : FS
  ok : Bool
  msg : String

/-- `update_photo_date(filepath, new_date)` (src/app.py:296-331). -/
def update_photo_date (processedDir : String) (env : CorrEnv) (fs : FS)
    (filepath newDate : String) : UpdResult :=
  match calculate_file_hash fs filepath with
  | none => ⟨fs, false, "Could not calculate file hash"⟩
  | some origHash =>
    match updateSteps processedDir env (create_backup fs filepath)
        filepath newDate origHash with
    | .ok fsOk => ⟨fsOk, true, "Photo date updated successfully"⟩
    | .error (fsE, e) =>
      ⟨restore_from_backup fsE filepath, false, "Error updating photo: " ++ e⟩

/-! ### Path arithmetic -/

theorem lastIdx?_eq_none {c : Char} {l : List Char} :
    lastIdx? c l = none ↔ c ∉ l := by
  induction l with
  | nil => simp [lastIdx?]
  | cons a as ih =>
    rw [lastIdx?]
    cases h : lastIdx? c as with
    | some i =>
      have hmem : c ∈ as := by
        by_contra hc
        have := ih.mpr hc
        rw [h] at this
        exact absurd this (by simp)
      simp [hmem]
    | none =>
      by_cases hac : a = c
      · simp [hac]
      · simp [hac, ih.mp h, Ne.symm hac]

theorem lastIdx?_get {c : Char} {l : List Char} :
    ∀ {i : Nat}, lastIdx? c l = some i → l.get? i = some c := by
  induction l with
  | nil => intro i h; exact absurd h (by simp [lastIdx?])
  | cons a as ih =>
    intro i h
    rw [lastIdx?] at h
    cases h' : lastIdx? c as with
    | some j =>
      rw [h'] at h
      injection h with h
      rw [← h]
      simpa using ih h'
    | none =>
      rw [h'] at h
      by_cases hac : a = c
      · rw [if_pos hac] at h
        injection h with h
        rw [← h]
        simp [hac]
      · rw [if_neg hac] at h
        exact absurd h (by simp)

theorem lastIdx?_gt {c : Char} {l : List Char} :
    ∀ {i : Nat}, lastIdx? c l = some i → ∀ j, i < j → l.get? j ≠ some c := by
  induction l with
  | nil => intro i _ j _; simp
  | cons a as ih =>
    intro i h j hj
    rw [lastIdx?] at h
    cases h' : lastIdx? c as with
    | some k =>
      rw [h'] at h
      injection h with h
      cases j with
      | zero => omega
      | succ j' =>
        simpa using ih h' j' (by omega)
    | none =>
      rw [h'] at h
      cases j with
      | zero =>
        have : i = 0 ∨ False := by
          by_cases hac : a = c
          · rw [if_pos hac] at h; exact Or.inl (by injection h with h; omega)
          · rw [if_neg hac] at h; exact absurd h (by simp)
        rcases this with rfl | hF
        · omega
        · exact hF.elim
      | succ j' =>
        have hnot : c ∉ as := lastIdx?_eq_none.mp h'
        simp only [List.get?_cons_succ]
        intro hc
        exact hnot (List.get?_mem hc)

theorem lastIdx?_lt {c : Char} {l : List Char} {i : Nat} (h : lastIdx? c l = some i) :
    i < l.length := by
  have := lastIdx?_get h
  rw [List.get?_eq_some] at this
  exact this.1

theorem lastIdx?_append_not_mem {c : Char} {t : List Char} (ht : c ∉ t) :
    ∀ l : List Char, lastIdx? c (l ++ t) = lastIdx? c l := by
  intro l
  induction l with
  | nil =>
    rw [List.nil_append, lastIdx?_eq_none.mpr ht]
    rfl
  | cons a as ih =>
    rw [List.cons_append, lastIdx?, lastIdx?, ih]

theorem lastIdx?_append_self {c : Char} {y : List Char} (hy : c ∉ y) (x : List Char) :
    lastIdx? c (x ++ c :: y) = some x.length := by
  induction x with
  | nil =>
    rw [List.nil_append, lastIdx?, lastIdx?_eq_none.mpr hy]
    simp
  | cons a as ih =>
    rw [List.cons_append, lastIdx?, ih]
    simp

theorem slash_not_mem_basenameL (l : List Char) : '/' ∉ basenameL l := by
  unfold basenameL
  cases h : lastIdx? '/' l with
  | none => exact lastIdx?_eq_none.mp h
  | some si =>
    intro hmem
    obtain ⟨k, hk⟩ := List.mem_iff_get?.mp hmem
    rw [List.get?_drop] at hk
    exact lastIdx?_gt h (si + 1 + k) (by omega) hk

theorem basenameL_concat {y : List Char} (hy : '/' ∉ y) (x : List Char) :
    basenameL (x ++ '/' :: y) = y := by
  unfold basenameL
  rw [lastIdx?_append_self hy x]
  dsimp only
  rw [show x ++ '/' :: y = (x ++ ['/']) ++ y by simp]
  rw [List.drop_left' (by simp)]

theorem basenameL_append_right {t : List Char} (ht : '/' ∉ t) (l : List Char) :
    basenameL (l ++ t) = basenameL l ++ t := by
  unfold basenameL
  rw [lastIdx?_append_not_mem ht]
  cases h : lastIdx? '/' l with
  | none => rfl
  | some si =>
    have hsi : si < l.length := lastIdx?_lt h
    dsimp only
    rw [List.drop_append_of_le_length (by omega)]

theorem splitext_append_eq (l : List Char) :
    splitextStemL l ++ splitextExtL l = l := by
  unfold splitextStemL splitextExtL
  cases h : splitextIdx? l with
  | none => simp
  | some di => exact List.take_append_drop di l

theorem mem_splitextStemL {c : Char} {l : List Char} (h : c ∈ splitextStemL l) :
    c ∈ l := by
  unfold splitextStemL at h
  cases h' : splitextIdx? l with
  | none => rwa [h'] at h
  | some di =>
    rw [h'] at h
    exact List.take_subset di l h

theorem mem_splitextExtL {c : Char} {l : List Char} (h : c ∈ splitextExtL l) :
    c ∈ l := by
  unfold splitextExtL at h
  cases h' : splitextIdx? l with
  | none => rw [h'] at h; exact absurd h (by simp)
  | some di =>
    rw [h'] at h
    exact List.drop_subset di l h

/-! ### Characters of rendered dates -/

theorem digitCharL_ne (n : Nat) : digitCharL n ≠ '.' ∧ digitCharL n ≠ '/' := by
  unfold digitCharL
  split_ifs <;> exact ⟨by decide, by decide⟩

theorem natStrLAux_chars : ∀ fuel n, ∀ c ∈ natStrLAux fuel n, c ≠ '.' ∧ c ≠ '/' := by
  intro fuel
  induction fuel with
  | zero => intro n c hc; exact absurd hc (by simp [natStrLAux])
  | succ f ih =>
    intro n c hc
    rw [natStrLAux] at hc
    by_cases h : n < 10
    · rw [if_pos h] at hc
      simp only [List.mem_singleton] at hc
      subst hc
      exact digitCharL_ne n
    · rw [if_neg h] at hc
      rcases List.mem_append.mp hc with hc | hc
      · exact ih (n / 10) c hc
      · simp only [List.mem_singleton] at hc
        subst hc
        exact digitCharL_ne (n % 10)

theorem natStrL_chars (n : Nat) : ∀ c ∈ natStrL n, c ≠ '.' ∧ c ≠ '/' :=
  fun c hc => natStrLAux_chars (n + 1) n c hc

theorem pad2L_chars (n : Nat) : ∀ c ∈ pad2L n, c ≠ '.' ∧ c ≠ '/' := by
  intro c hc
  unfold pad2L at hc
  by_cases h : n < 10
  · rw [if_pos h] at hc
    rcases List.mem_cons.mp hc with rfl | hc
    · exact ⟨by decide, by decide⟩
    · exact natStrL_chars n c hc
  · rw [if_neg h] at hc
    exact natStrL_chars n c hc

theorem dateStrOfL_chars (d : PDate) : ∀ c ∈ dateStrOfL d, c ≠ '.' ∧ c ≠ '/' := by
  intro c hc
  unfold dateStrOfL at hc
  rcases List.mem_append.mp hc with hc | hc
  · exact natStrL_chars d.year c hc
  · rcases List.mem_cons.mp hc with rfl | hc
    · exact ⟨by decide, by decide⟩
    · rcases List.mem_append.mp hc with hc | hc
      · exact pad2L_chars d.month c hc
      · rcases List.mem_cons.mp hc with rfl | hc
        · exact ⟨by decide, by decide⟩
        · exact pad2L_chars d.day c hc

/-! ### The chosen destination never aliases the backup path

The destination basename carries at most as many dots as the source
basename (the date prefix and the random/timestamp suffixes are dot-free),
while `<filepath>.backup`'s basename carries one more dot than the source
basename — so the two paths can never be equal. -/

theorem count_toProcessedName {datePre b : String} (hdp : '.' ∉ datePre.data) :
    (toProcessedName datePre b).data.count '.' ≤ b.data.count '.' := by
  unfold toProcessedName
  split_ifs with h1 h2
  · exact Nat.le_refl _
  · simp only [String.data_append, List.count_append]
    rw [List.count_eq_zero_of_not_mem hdp]
    have hu : List.count '.' "_".data = 0 := by decide
    have hu2 : List.count '.' ['_'] = 0 := by decide
    have hb : b.data.count '.' =
        (b.data.take 11).count '.' + (b.data.drop 11).count '.' := by
      conv_lhs => rw [← List.take_append_drop 11 b.data]
      rw [List.count_append]
    omega
  · simp only [String.data_append, List.count_append]
    rw [List.count_eq_zero_of_not_mem hdp]
    have hu : List.count '.' "_".data = 0 := by decide
    have hu2 : List.count '.' ['_'] = 0 := by decide
    omega

theorem slash_toProcessedName {datePre b : String} (hdp : '/' ∉ datePre.data)
    (hb : '/' ∉ b.data) : '/' ∉ (toProcessedName datePre b).data := by
  unfold toProcessedName
  split_ifs with h1 h2
  · exact hb
  · intro hm
    simp only [String.data_append] at hm
    rcases List.mem_append.mp hm with hm | hm
    · rcases List.mem_append.mp hm with hm | hm
      · exact hdp hm
      · revert hm; decide
    · exact hb (List.drop_subset _ _ hm)
  · intro hm
    simp only [String.data_append] at hm
    rcases List.mem_append.mp hm with hm | hm
    · rcases List.mem_append.mp hm with hm | hm
      · exact hdp hm
      · revert hm; decide
    · exact hb hm

theorem findUniqueName_shape (fs : FS) (dir stem ext : String) (env : MoveEnv) :
    ∀ fuel, ∃ sfx : String,
      (sfx = env.timeSuffix ∨ ∃ i, sfx = env.randSuffix i) ∧
      findUniqueName fs dir stem ext env fuel = stem ++ "_" ++ sfx ++ ext := by
  intro fuel
  induction fuel with
  | zero => exact ⟨env.timeSuffix, Or.inl rfl, rfl⟩
  | succ n ih =>
    rw [findUniqueName]
    split
    · exact ⟨env.randSuffix (100 - (n + 1)), Or.inr ⟨_, rfl⟩, rfl⟩
    · exact ih

theorem findUniqueName_occupied (fs : FS) (dir stem ext : String) (env : MoveEnv) :
    ∀ fuel, fs (dir ++ "/" ++ findUniqueName fs dir stem ext env fuel) ≠ none →
      (∀ i, 100 - fuel ≤ i → i < 100 →
        fs (dir ++ "/" ++ (stem ++ "_" ++ env.randSuffix i ++ ext)) ≠ none) ∧
      findUniqueName fs dir stem ext env fuel = stem ++ "_" ++ env.timeSuffix ++ ext := by
  intro fuel
  induction fuel with
  | zero =>
    intro _
    exact ⟨fun i h1 h2 => absurd h2 (by omega), rfl⟩
  | succ n ih =>
    intro h
    rw [findUniqueName] at h ⊢
    by_cases hc :
        fs (dir ++ "/" ++ (stem ++ "_" ++ env.randSuffix (100 - (n + 1)) ++ ext)) = none
    · rw [if_pos hc] at h
      exact absurd hc h
    · rw [if_neg hc] at h ⊢
      obtain ⟨hrec, hts⟩ := ih h
      refine ⟨?_, hts⟩
      intro i h1 h2
      by_cases hi : 100 - n ≤ i
      · exact hrec i hi h2
      · have hieq : i = 100 - (n + 1) := by omega
        rw [hieq]
        exact hc

/-- No `dir/name` with a slash-free `name` carrying at most as many dots as
the source basename can equal `<filepath>.backup`. -/
theorem no_backup_alias {dir name filepath : String} (hsl : '/' ∉ name.data)
    (hcnt : name.data.count '.' ≤ (basenameL filepath.data).count '.')
    (heq : dir ++ "/" ++ name = filepath ++ ".backup") : False := by
  have hdata : dir.data ++ '/' :: name.data = filepath.data ++ ".backup".data := by
    have := congrArg String.data heq
    simpa using this
  have hL : basenameL (dir.data ++ '/' :: name.data) = name.data :=
    basenameL_concat hsl dir.data
  have hR : basenameL (filepath.data ++ ".backup".data) =
      basenameL filepath.data ++ ".backup".data :=
    basenameL_append_right (by decide) filepath.data
  have hname : name.data = basenameL filepath.data ++ ".backup".data := by
    rw [← hL, hdata, hR]
  have hone : name.data.count '.' = (basenameL filepath.data).count '.' + 1 := by
    rw [hname, List.count_append]
    rw [show (".backup".data.count '.') = 1 by decide]
  omega

theorem moveDest_ne_backup (processedDir : String) (fs : FS) (env : MoveEnv)
    (filepath : String) (d : PDate)
    (hr : ∀ i, '.' ∉ (env.randSuffix i).data ∧ '/' ∉ (env.randSuffix i).data)
    (ht : '.' ∉ env.timeSuffix.data ∧ '/' ∉ env.timeSuffix.data) :
    moveDest processedDir fs env filepath d ≠ filepath ++ ".backup" := by
  intro heq
  have hdp_dot : '.' ∉ (String.mk (dateStrOfL d)).data :=
    fun hm => (dateStrOfL_chars d _ hm).1 rfl
  have hdp_sl : '/' ∉ (String.mk (dateStrOfL d)).data :=
    fun hm => (dateStrOfL_chars d _ hm).2 rfl
  have hb_sl : '/' ∉ (basename filepath).data := slash_not_mem_basenameL filepath.data
  have hbase_dot :
      (toProcessedName ⟨dateStrOfL d⟩ (basename filepath)).data.count '.' ≤
        (basenameL filepath.data).count '.' := count_toProcessedName hdp_dot
  have hbase_sl : '/' ∉ (toProcessedName ⟨dateStrOfL d⟩ (basename filepath)).data :=
    slash_toProcessedName hdp_sl hb_sl
  unfold moveDest at heq
  dsimp only at heq
  split at heq
  · exact no_backup_alias hbase_sl hbase_dot heq
  · obtain ⟨sfx, hsfx, hfeq⟩ := findUniqueName_shape fs (moveDir processedDir d)
      ⟨splitextStemL (toProcessedName ⟨dateStrOfL d⟩ (basename filepath)).data⟩
      ⟨splitextExtL (toProcessedName ⟨dateStrOfL d⟩ (basename filepath)).data⟩ env 100
    rw [hfeq] at heq
    have hsfx_dot : '.' ∉ sfx.data := by
      rcases hsfx with rfl | ⟨i, rfl⟩
      · exact ht.1
      · exact (hr i).1
    have hsfx_sl : '/' ∉ sfx.data := by
      rcases hsfx with rfl | ⟨i, rfl⟩
      · exact ht.2
      · exact (hr i).2
    refine no_backup_alias ?_ ?_ heq
    · intro hm
      simp only [String.data_append] at hm
      rcases List.mem_append.mp hm with hm | hm
      · rcases List.mem_append.mp hm with hm | hm
        · rcases List.mem_append.mp hm with hm | hm
          · exact hbase_sl (mem_splitextStemL hm)
          · revert hm; decide
        · exact hsfx_sl hm
      · exact hbase_sl (mem_splitextExtL hm)
    · simp only [String.data_append, List.count_append]
      have hz : List.count '.' sfx.data = 0 := List.count_eq_zero_of_not_mem hsfx_dot
      have hu : List.count '.' "_".data = 0 := by decide
      have hu2 : List.count '.' ['_'] = 0 := by decide
      have hsplit :
          (splitextStemL (toProcessedName ⟨dateStrOfL d⟩ (basename filepath)).data).count '.' +
            (splitextExtL (toProcessedName ⟨dateStrOfL d⟩ (basename filepath)).data).count '.' =
          (toProcessedName ⟨dateStrOfL d⟩ (basename filepath)).data.count '.' := by
        rw [← List.count_append, splitext_append_eq]
      omega

theorem backup_ne_self (p : String) : p ++ ".backup" ≠ p := by
  intro h
  have h2 : (p ++ ".backup").data.length = p.data.length := by rw [h]
  rw [String.data_append, List.length_append] at h2
  have h7 : (".backup" : String).data.length = 7 := by decide
  omega

/-- In every error outcome of the protected block, the backup file is still
present with its original contents, and the exception text identifies the
failing step. -/
theorem updateSteps_error_backup (processedDir : String) (env : CorrEnv) (fs : FS)
    (filepath newDate : String) (origHash : Nat) (fsE : FS) (e : String)
    (hbk : fs (filepath ++ ".backup") = some origHash)
    (hr : ∀ i, '.' ∉ (env.move.randSuffix i).data ∧ '/' ∉ (env.move.randSuffix i).data)
    (ht : '.' ∉ env.move.timeSuffix.data ∧ '/' ∉ env.move.timeSuffix.data)
    (herr : updateSteps processedDir env fs filepath newDate origHash = .error (fsE, e)) :
    fsE (filepath ++ ".backup") = some origHash ∧
    e ∈ ["strptime: invalid date", "utime failed", "image verify failed",
      "database error"] := by
  unfold updateSteps at herr
  cases hpd : parseDate newDate with
  | none =>
    rw [hpd] at herr
    simp only [Except.error.injEq, Prod.mk.injEq] at herr
    obtain ⟨h1, h2⟩ := herr
    rw [← h1, ← h2]
    exact ⟨hbk, by simp⟩
  | some d =>
    rw [hpd] at herr
    by_cases hu : env.utimeOk = false
    · rw [if_pos hu] at herr
      simp only [Except.error.injEq, Prod.mk.injEq] at herr
      obtain ⟨h1, h2⟩ := herr
      rw [← h1, ← h2]
      exact ⟨hbk, by simp⟩
    · rw [if_neg hu] at herr
      have hbk2 : (fs.set filepath ((fs filepath).map env.exifFn))
          (filepath ++ ".backup") = some origHash := by
        rw [FS.set_other _ _ _ _ (backup_ne_self filepath)]
        exact hbk
      by_cases hv : (verify_file_integrity (fs.set filepath ((fs filepath).map env.exifFn))
          filepath origHash || env.imageValid) = true
      · rw [if_pos hv] at herr
        by_cases hm : env.markOk = false
        · rw [if_pos hm] at herr
          simp only [Except.error.injEq, Prod.mk.injEq] at herr
          obtain ⟨h1, h2⟩ := herr
          rw [← h1, ← h2]
          refine ⟨?_, by simp⟩
          unfold move_photo_to_processed
          rw [hpd]
          dsimp only
          cases hsrc2 : (fs.set filepath ((fs filepath).map env.exifFn)) filepath with
          | none => exact hbk2
          | some c2 =>
            dsimp only
            rw [FS.set_other _ _ _ _
              (Ne.symm (moveDest_ne_backup processedDir _ env.move filepath d hr ht))]
            rw [FS.set_other _ _ _ _ (backup_ne_self filepath)]
            exact hbk2
        · rw [if_neg hm] at herr
          exact absurd herr (by simp)
      · rw [if_neg hv] at herr
        simp only [Except.error.injEq, Prod.mk.injEq] at herr
        obtain ⟨h1, h2⟩ := herr
        rw [← h1, ← h2]
        exact ⟨hbk2, by simp⟩

/-- C1: whenever `update_photo_date` reports failure after the backup was
created (readable source file), the file at its original path again holds
its pre-operation contents — restored from the backup — and the reported
message carries the specific failing step's exception text.  The oracle
hypotheses record that `secrets.token_hex` and `str(int(time.time()*1000))`
suffixes contain no dot and no slash. -/
theorem update_photo_date_rollback (processedDir : String) (env : CorrEnv) (fs : FS)
    (filepath newDate : String) (c : Nat)
    (hsrc : fs filepath = some c)
    (hr : ∀ i, '.' ∉ (env.move.randSuffix i).data ∧ '/' ∉ (env.move.randSuffix i).data)
    (ht : '.' ∉ env.move.timeSuffix.data ∧ '/' ∉ env.move.timeSuffix.data)
    (hfail : (update_photo_date processedDir env fs filepath newDate).ok = false) :
    (update_photo_date processedDir env fs filepath newDate).fs filepath = some c ∧
    ∃ cause, cause ∈ ["strptime: invalid date", "utime failed",
        "image verify failed", "database error"] ∧
      (update_photo_date processedDir env fs filepath newDate).msg =
        "Error updating photo: " ++ cause := by
  unfold update_photo_date calculate_file_hash at hfail ⊢
  rw [hsrc] at hfail ⊢
  cases hstep : updateSteps processedDir env (create_backup fs filepath)
      filepath newDate c with
  | ok fsOk =>
    simp [hstep] at hfail
  | error pr =>
    obtain ⟨fsE, e⟩ := pr
    simp only [hstep]
    have hbk1 : (create_backup fs filepath) (filepath ++ ".backup") = some c := by
      unfold create_backup
      rw [FS.set_same, hsrc]
    obtain ⟨hbkE, hmem⟩ := updateSteps_error_backup processedDir env
      (create_backup fs filepath) filepath newDate c fsE e hbk1 hr ht hstep
    constructor
    · show (restore_from_backup fsE filepath) filepath = some c
      unfold restore_from_backup
      rw [hbkE]
      dsimp only
      rw [FS.set_other _ _ _ _ (Ne.symm (backup_ne_self filepath))]
      exact FS.set_same _ _ _
    · exact ⟨e, hmem, rfl⟩

/-- Concrete filesystem for the C1 witness. -/
def w1Fs : FS := fun q => if q = "u/x.jpg" then some 1 else none

/-- Concrete oracle for the C1 witness: the timestamp mutation fails. -/
def w1Env : CorrEnv :=
  { move := { randSuffix := fun _ => "abc123", timeSuffix := "1700" },
    utimeOk := false, exifFn := id, imageValid := true, markOk := true }

/-- C1 (witness): a concrete failing run restores the original contents. -/
theorem update_photo_date_rollback_witness :
    (update_photo_date "p" w1Env w1Fs "u/x.jpg" "2024-01-05").fs "u/x.jpg" = some 1 := by
  have hr : ∀ i, '.' ∉ (w1Env.move.randSuffix i).data ∧
      '/' ∉ (w1Env.move.randSuffix i).data := by
    intro i
    constructor
    · show ('.' : Char) ∉ ("abc123" : String).data
      decide
    · show ('/' : Char) ∉ ("abc123" : String).data
      decide
  exact (update_photo_date_rollback "p" w1Env w1Fs "u/x.jpg" "2024-01-05" 1 (by decide)
    hr ⟨by decide, by decide⟩ (by decide)).1

/-- C2 (amended): a relocation never changes any pre-existing file other
than (possibly) the one at the destination it selects; the selected
destination is occupied only when the base name and all 100 random-suffix
candidates were found occupied, in which case it is the timestamp-suffix
name, taken without a further existence check; the source contents end up at
the selected destination. -/
theorem move_never_overwrites_amended (processedDir : String) (fs : FS) (env : MoveEnv)
    (filepath date : String) (d : PDate) (c : Nat)
    (hd : parseDate date = some d) (hsrc : fs filepath = some c) :
    (∀ q v, fs q = some v → q ≠ filepath →
        q ≠ moveDest processedDir fs env filepath d →
        (move_photo_to_processed processedDir fs env filepath date).fs q = some v) ∧
    (fs (moveDest processedDir fs env filepath d) ≠ none →
      fs (baseCand processedDir filepath d) ≠ none ∧
      (∀ i, i < 100 → fs (randCand processedDir env filepath d i) ≠ none) ∧
      moveDest processedDir fs env filepath d = tsCand processedDir env filepath d) ∧
    (move_photo_to_processed processedDir fs env filepath date).fs
      (moveDest processedDir fs env filepath d) = some c ∧
    (move_photo_to_processed processedDir fs env filepath date).newPath =
      moveDest processedDir fs env filepath d := by
  have hmv : move_photo_to_processed processedDir fs env filepath date =
      ⟨(fs.set filepath none).set (moveDest processedDir fs env filepath d) (some c),
        moveDest processedDir fs env filepath d⟩ := by
    unfold move_photo_to_processed
    rw [hd]
    dsimp only
    rw [hsrc]
  refine ⟨?_, ?_, ?_, ?_⟩
  · intro q v hq hqf hqd
    rw [hmv]
    dsimp only
    rw [FS.set_other _ _ _ _ hqd, FS.set_other _ _ _ _ hqf]
    exact hq
  · intro hocc
    unfold moveDest at hocc
    by_cases hc0 : fs (moveDir processedDir d ++ "/" ++
        toProcessedName ⟨dateStrOfL d⟩ (basename filepath)) = none
    · rw [if_pos hc0] at hocc
      exact absurd hc0 hocc
    · rw [if_neg hc0] at hocc
      obtain ⟨hall, hts⟩ :=
        findUniqueName_occupied fs (moveDir processedDir d)
          ⟨splitextStemL (toProcessedName ⟨dateStrOfL d⟩ (basename filepath)).data⟩
          ⟨splitextExtL (toProcessedName ⟨dateStrOfL d⟩ (basename filepath)).data⟩
          env 100 hocc
      refine ⟨hc0, ?_, ?_⟩
      · intro i hi
        exact hall i (by omega) hi
      · unfold moveDest
        rw [if_neg hc0, hts]
        rfl
  · rw [hmv]
    exact FS.set_same _ _ _
  · rw [hmv]

/-- Concrete filesystem for the C2 witness. -/
def w2Fs : FS := fun q =>
  if q = "u/x.jpg" then some 1 else if q = "other" then some 5 else none

/-- Concrete oracle for the C2 relocation runs. -/
def w2Env : MoveEnv := ⟨fun _ => "aa", "777"⟩

/-- C2 (witness): a concrete relocation leaves an unrelated file intact. -/
theorem move_never_overwrites_amended_witness :
    (move_photo_to_processed "p" w2Fs w2Env "u/x.jpg" "2024-01-05").fs "other" = some 5 :=
  (move_never_overwrites_amended "p" w2Fs w2Env "u/x.jpg" "2024-01-05" ⟨2024, 1, 5⟩ 1
    (by decide) (by decide)).1 "other" 5 (by decide) (by decide) (by decide)

/-- Concrete filesystem for the C2 counterexample: destination base name,
every random-suffix candidate (the oracle always draws `aa`) and the
timestamp-suffix name are all occupied. -/
def c2Fs : FS := fun q =>
  if q = "u/x.jpg" then some 1
  else if q = "p/2024/01/2024-01-05_x.jpg" then some 7
  else if q = "p/2024/01/2024-01-05_x_aa.jpg" then some 8
  else if q = "p/2024/01/2024-01-05_x_777.jpg" then some 9
  else none

/-- C2 (counterexample): when the base name, all 100 random-suffix attempts
and the timestamp-suffix name are occupied, `move_photo_to_processed`
overwrites the pre-existing file at the timestamp-suffix destination — its
contents change from 9 to the source's 1, contradicting "in every outcome
the pre-existing destination file's contents are unchanged". -/
theorem move_overwrites_counterexample :
    c2Fs "p/2024/01/2024-01-05_x_777.jpg" = some 9 ∧
    (move_photo_to_processed "p" c2Fs w2Env "u/x.jpg" "2024-01-05").fs
      "p/2024/01/2024-01-05_x_777.jpg" = some 1 ∧
    (9 : Nat) ≠ 1 := by
  refine ⟨by decide, by decide, by decide⟩

/-! ## Catalog store (claims C3, C6, C7, C9, C10)

`DatabaseManager` (src/database.py).  SQLite tables are lists of rows in
rowid order; `AUTOINCREMENT` ids are explicit counters; `CURRENT_TIMESTAMP`
is an explicit `now` argument; float similarity scores are abstracted as
integers; pickled embedding blobs as numbers.  `get_connection` does not
enable `PRAGMA foreign_keys`, so `ON DELETE CASCADE` clauses are inert and
deletions are modelled exactly as the explicit SQL statements perform
them. -/

structure PhotoRow where
  id : Nat
  filepath : String
  base_name : String
  file_type : String
  default_date : Option String
  processed_date : Option Nat
  ignored_date : Option Nat
deriving DecidableEq

structure GroupRow where
  id : Nat
  name : Option String
  description : Option String
  similarity_score : Option Int
deriving DecidableEq

structure MemberRow where
  photo_id : Nat
  group_id : Nat
  similarity_score : Option Int
deriving DecidableEq

structure EmbRow where
  photo_id : Nat
  embedding_type : String
  embedding_data : Nat
deriving DecidableEq

structure DB where
  photos : List PhotoRow
  groups : List GroupRow
  members : List MemberRow
  embeddings : List EmbRow
  nextPhotoId : Nat
  nextGroupId : Nat
deriving DecidableEq

/-- `get_all_photo_paths` (src/database.py:270-277). -/
def get_all_photo_paths (db : DB) : List String := db.photos.map (·.filepath)

/-- `get_processed_photos` (src/database.py:393-402). -/
def get_processed_photos (db : DB) : List String :=
  (db.photos.filter (fun p => p.processed_date ≠ none)).map (·.filepath)

/-- `get_ignored_photos` (src/database.py:404-413). -/
def get_ignored_photos (db : DB) : List String :=
  (db.photos.filter (fun p => p.ignored_date ≠ none)).map (·.filepath)

/-- `batch_add_photos` (src/database.py:288-299): `INSERT OR IGNORE` row by
row; an existing `filepath` leaves the table untouched. -/
def batch_add_photos (db : DB)
    (photos : List (String × String × String × Option String)) : DB :=
  photos.foldl (fun db t =>
    if t.1 ∈ db.photos.map (·.filepath) then db
    else { db with
      photos := db.photos ++
        [⟨db.nextPhotoId, t.1, t.2.1, t.2.2.1, t.2.2.2, none, none⟩],
      nextPhotoId := db.nextPhotoId + 1 }) db

/-- `add_photo` (src/database.py:301-314): `INSERT OR REPLACE` — any row
with the conflicting unique `filepath` is deleted and a fresh row (new
autoincrement id, `NULL` timestamps) appended. -/
def add_photo (db : DB) (filepath base_name file_type : String)
    (default_date : Option String) : DB :=
  { db with
    photos := db.photos.filter (fun p => p.filepath ≠ filepath) ++
      [⟨db.nextPhotoId, filepath, base_name, file_type, default_date, none, none⟩],
    nextPhotoId := db.nextPhotoId + 1 }

/-- `mark_photo_ignored` (src/database.py:379-391). -/
def mark_photo_ignored (db : DB) (filepath : String) (now : Nat) : DB :=
  { db with photos := db.photos.map (fun p =>
      if p.filepath = filepath then { p with ignored_date := some now } else p) }

/-- `cleanup_missing_photos` (src/database.py:345-377): collect the ids of
photos whose file no longer exists, delete the member, embedding and photo
rows carrying those ids, return the count. -/
def cleanup_missing_photos (exists? : String → Bool) (db : DB) : DB × Nat :=
  let missing := (db.photos.filter (fun p => !(exists? p.filepath))).map (·.id)
  let db' :=
    if missing.isEmpty then db
    else
      { db with
        photos := db.photos.filter (fun p => decide (p.id ∉ missing)),
        members := db.members.filter (fun m => decide (m.photo_id ∉ missing)),
        embeddings := db.embeddings.filter (fun e => decide (e.photo_id ∉ missing)) }
  (db', missing.length)

/-- `create_photo_group` (src/database.py:462-475): returns the new group's
autoincrement id. -/
def create_photo_group (db : DB) (name description : Option String)
    (similarity_score : Option Int) : DB × Nat :=
  ({ db with
      groups := db.groups ++ [⟨db.nextGroupId, name, description, similarity_score⟩],
      nextGroupId := db.nextGroupId + 1 },
    db.nextGroupId)

/-- `add_photo_to_group` (src/database.py:477-498): `fetchone` on the unique
filepath, then `INSERT OR REPLACE` on the unique `(photo_id, group_id)`
pair — a conflicting member row is deleted and the new one appended. -/
def add_photo_to_group (db : DB) (photo_filepath : String) (group_id : Nat)
    (similarity_score : Option Int) : DB × Bool :=
  match db.photos.find? (fun p => p.filepath == photo_filepath) with
  | none => (db, false)
  | some ph =>
    ({ db with members :=
        db.members.filter (fun m => !(m.photo_id == ph.id && m.group_id == group_id)) ++
        [⟨ph.id, group_id, similarity_score⟩] },
      true)

/-- Oracles for group creation: `calculate_group_similarity` is float
arithmetic over pickled embeddings, and the description f-string embeds a
formatted float. -/
structure GroupEnv where
  sim : List String → Int
  describe : Nat → List String → String

/-- One iteration of `create_photo_groups_in_database`'s loop
(src/similarity_analyzer.py:232-250). -/
def addGroupStep (genv : GroupEnv) (db : DB) (ig : Nat × List String) : DB :=
  let avg := genv.sim ig.2
  let r := create_photo_group db
    (some ("Similar Photos Group " ++ ⟨natStrL (ig.1 + 1)⟩))
    (some (genv.describe ig.1 ig.2)) (some avg)
  ig.2.foldl (fun db2 fp => (add_photo_to_group db2 fp r.2 (some avg)).1) r.1

/-- `create_photo_groups_in_database(groups)`
(src/similarity_analyzer.py:228-252): inserts each given group and its
members; nothing is deleted first. -/
def create_photo_groups_in_database (genv : GroupEnv) (db : DB)
    (groups : List (List String)) : DB :=
  groups.enum.foldl (addGroupStep genv) db

theorem add_photo_to_group_fields (db : DB) (fp : String) (gid : Nat) (s : Option Int) :
    (add_photo_to_group db fp gid s).1.photos = db.photos ∧
    (add_photo_to_group db fp gid s).1.groups = db.groups ∧
    (add_photo_to_group db fp gid s).1.embeddings = db.embeddings ∧
    (add_photo_to_group db fp gid s).1.nextPhotoId = db.nextPhotoId ∧
    (add_photo_to_group db fp gid s).1.nextGroupId = db.nextGroupId := by
  unfold add_photo_to_group
  cases hf : db.photos.find? (fun p => p.filepath == fp) <;> simp [hf]

theorem add_photo_to_group_members (db : DB) (fp : String) (gid : Nat) (s : Option Int)
    (base tail : List MemberRow)
    (hm : db.members = base ++ tail)
    (hbase : ∀ b ∈ base, b.group_id < gid)
    (htail : ∀ t ∈ tail, t.group_id = gid) :
    ∃ tail', (add_photo_to_group db fp gid s).1.members = base ++ tail' ∧
      ∀ t ∈ tail', t.group_id = gid := by
  unfold add_photo_to_group
  cases hf : db.photos.find? (fun p => p.filepath == fp) with
  | none => exact ⟨tail, by simp [hf, hm], htail⟩
  | some ph =>
    refine ⟨tail.filter (fun m => !(m.photo_id == ph.id && m.group_id == gid)) ++
      [⟨ph.id, gid, s⟩], ?_, ?_⟩
    · simp only [hf]
      rw [hm, List.filter_append]
      have hb : base.filter (fun m => !(m.photo_id == ph.id && m.group_id == gid)) = base := by
        apply List.filter_eq_self.mpr
        intro b hbm
        have hne : b.group_id ≠ gid := Nat.ne_of_lt (hbase b hbm)
        simp [hne]
      rw [hb, List.append_assoc]
    · intro t ht
      rcases List.mem_append.mp ht with h | h
      · exact htail t (List.mem_filter.mp h).1
      · simp only [List.mem_singleton] at h
        rw [h]

theorem add_members_fold (gid : Nat) (s : Option Int) (fps : List String) :
    ∀ (db : DB) (base tail : List MemberRow),
      db.members = base ++ tail →
      (∀ b ∈ base, b.group_id < gid) →
      (∀ t ∈ tail, t.group_id = gid) →
      ∃ tail',
        (fps.foldl (fun d fp => (add_photo_to_group d fp gid s).1) db).members
            = base ++ tail' ∧
        (∀ t ∈ tail', t.group_id = gid) ∧
        (fps.foldl (fun d fp => (add_photo_to_group d fp gid s).1) db).photos = db.photos ∧
        (fps.foldl (fun d fp => (add_photo_to_group d fp gid s).1) db).groups = db.groups ∧
        (fps.foldl (fun d fp => (add_photo_to_group d fp gid s).1) db).embeddings
            = db.embeddings ∧
        (fps.foldl (fun d fp => (add_photo_to_group d fp gid s).1) db).nextPhotoId
            = db.nextPhotoId ∧
        (fps.foldl (fun d fp => (add_photo_to_group d fp gid s).1) db).nextGroupId
            = db.nextGroupId := by
  induction fps with
  | nil =>
    intro db base tail hm hb ht
    exact ⟨tail, hm, ht, rfl, rfl, rfl, rfl, rfl⟩
  | cons fp fps ih =>
    intro db base tail hm hb ht
    obtain ⟨tail1, hm1, ht1⟩ := add_photo_to_group_members db fp gid s base tail hm hb ht
    obtain ⟨hp, hg, he, hnp, hng⟩ := add_photo_to_group_fields db fp gid s
    obtain ⟨tail', h1, h2, h3, h4, h5, h6, h7⟩ :=
      ih ((add_photo_to_group db fp gid s).1) base tail1 hm1 hb ht1
    refine ⟨tail', ?_, h2, ?_, ?_, ?_, ?_, ?_⟩ <;> simp only [List.foldl_cons]
    exacts [h1, h3.trans hp, h4.trans hg, h5.trans he, h6.trans hnp, h7.trans hng]

theorem addGroupStep_spec (genv : GroupEnv) (db : DB) (ig : Nat × List String)
    (hm : ∀ m ∈ db.members, m.group_id < db.nextGroupId) :
    ∃ g tail,
      (addGroupStep genv db ig).groups = db.groups ++ [g] ∧
      (addGroupStep genv db ig).members = db.members ++ tail ∧
      (addGroupStep genv db ig).photos = db.photos ∧
      (addGroupStep genv db ig).embeddings = db.embeddings ∧
      (addGroupStep genv db ig).nextGroupId = db.nextGroupId + 1 ∧
      (∀ m ∈ (addGroupStep genv db ig).members,
        m.group_id < (addGroupStep genv db ig).nextGroupId) := by
  obtain ⟨tail', h1, h2, h3, h4, h5, h6, h7⟩ :=
    add_members_fold db.nextGroupId (some (genv.sim ig.2)) ig.2
      { db with
          groups := db.groups ++
            [⟨db.nextGroupId, some ("Similar Photos Group " ++ ⟨natStrL (ig.1 + 1)⟩),
              some (genv.describe ig.1 ig.2), some (genv.sim ig.2)⟩],
          nextGroupId := db.nextGroupId + 1 }
      db.members []
      (by simp) (by exact hm) (by simp)
  refine ⟨⟨db.nextGroupId, some ("Similar Photos Group " ++ ⟨natStrL (ig.1 + 1)⟩),
      some (genv.describe ig.1 ig.2), some (genv.sim ig.2)⟩, tail', ?_, ?_, ?_, ?_, ?_, ?_⟩
  · exact h4
  · exact h1
  · exact h3
  · exact h5
  · exact h7
  · intro m hmem
    simp only [addGroupStep, create_photo_group] at hmem ⊢
    rw [h1] at hmem
    rw [h7]
    rcases List.mem_append.mp hmem with h | h
    · exact Nat.lt_succ_of_lt (hm m h)
    · rw [h2 m h]
      exact Nat.lt_succ_self _

theorem cpg_fold (genv : GroupEnv) (l : List (Nat × List String)) :
    ∀ db : DB, (∀ m ∈ db.members, m.group_id < db.nextGroupId) →
      ∃ gs tail,
        (l.foldl (addGroupStep genv) db).groups = db.groups ++ gs ∧
        gs.length = l.length ∧
        (l.foldl (addGroupStep genv) db).members = db.members ++ tail ∧
        (l.foldl (addGroupStep genv) db).photos = db.photos ∧
        (l.foldl (addGroupStep genv) db).embeddings = db.embeddings ∧
        (∀ m ∈ (l.foldl (addGroupStep genv) db).members,
          m.group_id < (l.foldl (addGroupStep genv) db).nextGroupId) := by
  induction l with
  | nil =>
    intro db hm
    exact ⟨[], [], by simp, rfl, by simp, rfl, rfl, hm⟩
  | cons ig l ih =>
    intro db hm
    obtain ⟨g, tail1, hg, hmem, hp, he, _, hinv⟩ := addGroupStep_spec genv db ig hm
    obtain ⟨gs, tail', h1, h2, h3, h4, h5, h7⟩ := ih (addGroupStep genv db ig) hinv
    simp only [List.foldl_cons]
    refine ⟨[g] ++ gs, tail1 ++ tail', ?_, ?_, ?_, ?_, ?_, ?_⟩
    · rw [h1, hg, List.append_assoc]
    · simp [h2]
    · rw [h3, hmem, List.append_assoc]
    · exact h4.trans hp
    · exact h5.trans he
    · exact h7

def c3Db : DB :=
  { photos := [⟨1, "p1", "b", "variant", none, none, none⟩,
               ⟨2, "p2", "b", "variant", none, none, none⟩],
    groups := [⟨5, some "old", none, none⟩],
    members := [⟨1, 5, none⟩],
    embeddings := [], nextPhotoId := 3, nextGroupId := 6 }

def c3Env : GroupEnv := ⟨fun _ => 0, fun _ _ => "d"⟩

/-- C3: counterexample.  Storing a clustering run does NOT first delete the
existing photo_groups rows: a catalog holding a prior group (id 5) still
holds that row after `create_photo_groups_in_database` stores a new
single-group run, and the table then holds two groups, not one.  The code
(src/similarity_analyzer.py:228-252 and its caller
src/scheduler.py:55-87) only ever INSERTs; no DELETE is issued. -/
theorem create_photo_groups_accumulate_counterexample :
    c3Db.groups = [⟨5, some "old", none, none⟩] ∧
    (⟨5, some "old", none, none⟩ : GroupRow) ∈
      (create_photo_groups_in_database c3Env c3Db [["p1", "p2"]]).groups ∧
    (create_photo_groups_in_database c3Env c3Db [["p1", "p2"]]).groups.length = 2 := by
  refine ⟨by decide, by decide, by decide⟩

/-- C3 (amended): storing a clustering result is purely accumulative.
Provided every existing member row references an already-allocated group id,
a run of `create_photo_groups_in_database` keeps every pre-existing group
and member row as a prefix of its table, appends exactly one group row per
input group, and leaves the photos and embeddings tables untouched —
prior runs' groups are never deleted or replaced. -/
theorem create_photo_groups_accumulates (genv : GroupEnv) (db : DB)
    (groups : List (List String))
    (hm : ∀ m ∈ db.members, m.group_id < db.nextGroupId) :
    (create_photo_groups_in_database genv db groups).groups.take db.groups.length
        = db.groups ∧
    (create_photo_groups_in_database genv db groups).groups.length
        = db.groups.length + groups.length ∧
    (create_photo_groups_in_database genv db groups).members.take db.members.length
        = db.members ∧
    (create_photo_groups_in_database genv db groups).photos = db.photos ∧
    (create_photo_groups_in_database genv db groups).embeddings = db.embeddings := by
  obtain ⟨gs, tail, h1, h2, h3, h4, h5, _⟩ := cpg_fold genv groups.enum db hm
  unfold create_photo_groups_in_database
  refine ⟨?_, ?_, ?_, h4, h5⟩
  · rw [h1, List.take_left]
  · rw [h1, List.length_append, h2, List.enum_length]
  · rw [h3, List.take_left]

/-- The ids gathered by the first query of `cleanup_missing_photos`
(src/database.py:352-360): photos whose file no longer exists on disk. -/
def missingIds (exists? : String → Bool) (db : DB) : List Nat :=
  (db.photos.filter (fun p => !(exists? p.filepath))).map (fun p => p.id)

theorem cleanup_db_eq (exists? : String → Bool) (db : DB) :
    (cleanup_missing_photos exists? db).1 =
      { db with
        photos := db.photos.filter (fun p => decide (p.id ∉ missingIds exists? db)),
        members := db.members.filter (fun m => decide (m.photo_id ∉ missingIds exists? db)),
        embeddings :=
          db.embeddings.filter (fun e => decide (e.photo_id ∉ missingIds exists? db)) } := by
  unfold cleanup_missing_photos missingIds
  dsimp only
  split
  · rename_i h
    rw [List.isEmpty_iff_eq_nil.mp h]
    simp
  · rfl

/-- C7: the reconciliation pass `cleanup_missing_photos` removes exactly the
photo rows whose filepath no longer exists on disk, removes the member and
embedding rows whose photo_id references a missing photo, leaves the groups
table and every unrelated row untouched, and returns the number of photo
rows removed.  The hypothesis that photo ids are distinct is the `UNIQUE`
rowid invariant SQLite maintains for the real table. -/
theorem cleanup_missing_photos_spec (exists? : String → Bool) (db : DB)
    (hnd : (db.photos.map (fun p => p.id)).Nodup) :
    (cleanup_missing_photos exists? db).1.photos
        = db.photos.filter (fun p => exists? p.filepath) ∧
    (cleanup_missing_photos exists? db).1.members
        = db.members.filter (fun m => decide (m.photo_id ∉ missingIds exists? db)) ∧
    (cleanup_missing_photos exists? db).1.embeddings
        = db.embeddings.filter (fun e => decide (e.photo_id ∉ missingIds exists? db)) ∧
    (cleanup_missing_photos exists? db).1.groups = db.groups ∧
    (cleanup_missing_photos exists? db).2
        = (db.photos.filter (fun p => !(exists? p.filepath))).length := by
  have hmiss : ∀ p ∈ db.photos,
      decide (p.id ∉ missingIds exists? db) = exists? p.filepath := by
    intro p hp
    cases hex : exists? p.filepath with
    | false =>
      have hin : p.id ∈ missingIds exists? db := by
        unfold missingIds
        exact List.mem_map_of_mem _ (List.mem_filter.mpr ⟨hp, by simp [hex]⟩)
      simp [hin]
    | true =>
      have hout : p.id ∉ missingIds exists? db := by
        unfold missingIds
        intro hmem
        obtain ⟨q, hq, hqid⟩ := List.mem_map.mp hmem
        have hq' := List.mem_filter.mp hq
        have hqp : q = p := List.inj_on_of_nodup_map hnd hq'.1 hp hqid
        rw [hqp] at hq'
        simp [hex] at hq'
      simp [hout]
  refine ⟨?_, ?_, ?_, ?_, ?_⟩
  · rw [cleanup_db_eq]
    exact List.filter_congr hmiss
  · rw [cleanup_db_eq]
  · rw [cleanup_db_eq]
  · rw [cleanup_db_eq]
  · unfold cleanup_missing_photos
    dsimp only
    rw [List.length_map]

def c7Db : DB :=
  { photos := [⟨1, "kept.jpg", "kept", "variant", none, none, none⟩,
               ⟨2, "gone.jpg", "gone", "variant", none, some 9, none⟩],
    groups := [⟨10, some "g", none, none⟩],
    members := [⟨1, 10, none⟩, ⟨2, 10, none⟩],
    embeddings := [⟨1, "combined", 4⟩, ⟨2, "combined", 7⟩],
    nextPhotoId := 3, nextGroupId := 11 }

def c7Exists (fp : String) : Bool := fp != "gone.jpg"

/-- C7 witness: in a catalog with one surviving and one missing photo, the
pass removes the missing photo's row and its member/embedding rows, keeps
the rest, and reports one removal. -/
theorem cleanup_missing_photos_spec_witness :
    ((c7Db.photos.map (fun p => p.id)).Nodup) ∧
    ((cleanup_missing_photos c7Exists c7Db).1.photos
        = c7Db.photos.filter (fun p => c7Exists p.filepath) ∧
     (cleanup_missing_photos c7Exists c7Db).1.members
        = c7Db.members.filter (fun m => decide (m.photo_id ∉ missingIds c7Exists c7Db)) ∧
     (cleanup_missing_photos c7Exists c7Db).1.embeddings
        = c7Db.embeddings.filter (fun e => decide (e.photo_id ∉ missingIds c7Exists c7Db)) ∧
     (cleanup_missing_photos c7Exists c7Db).1.groups = c7Db.groups ∧
     (cleanup_missing_photos c7Exists c7Db).2
        = (c7Db.photos.filter (fun p => !(c7Exists p.filepath))).length) :=
  ⟨by decide, cleanup_missing_photos_spec c7Exists c7Db (by decide)⟩

/-- C3 (amended) witness at a concrete catalog and one-group run. -/
theorem create_photo_groups_accumulates_witness :
    (∀ m ∈ c3Db.members, m.group_id < c3Db.nextGroupId) ∧
    ((create_photo_groups_in_database c3Env c3Db [["p1", "p2"]]).groups.take
        c3Db.groups.length = c3Db.groups ∧
     (create_photo_groups_in_database c3Env c3Db [["p1", "p2"]]).groups.length
        = c3Db.groups.length + 1 ∧
     (create_photo_groups_in_database c3Env c3Db [["p1", "p2"]]).members.take
        c3Db.members.length = c3Db.members ∧
     (create_photo_groups_in_database c3Env c3Db [["p1", "p2"]]).photos = c3Db.photos ∧
     (create_photo_groups_in_database c3Env c3Db [["p1", "p2"]]).embeddings
        = c3Db.embeddings) :=
  ⟨by decide, create_photo_groups_accumulates c3Env c3Db [["p1", "p2"]] (by decide)⟩

/-! ## Clusterer (claim C8)

`SimilarityAnalyzer.find_similar_groups` (src/similarity_analyzer.py:167-226).
Embedding blobs are abstract numbers; `pickle.loads` may fail (`none`);
the DBSCAN labelling (StandardScaler + cosine similarity + fit_predict,
all float work) is an oracle producing arbitrary integer labels, `-1`
meaning noise. -/

structure ClusterEnv where
  loads : Nat → Option Nat
  labels : Int → Nat → List Nat → List Int

/-- Insertion into the `clusters` dict (src/similarity_analyzer.py:212-217):
Python dicts keep first-appearance key order and append to the value
list. -/
def addToCluster (label : Int) (fp : String) : List (Int × List String) →
    List (Int × List String)
  | [] => [(label, [fp])]
  | (l, g) :: rest =>
    if l = label then (l, g ++ [fp]) :: rest
    else (l, g) :: addToCluster label fp rest

def buildClusters (pairs : List (String × Int)) : List (Int × List String) :=
  pairs.foldl (fun cs p => if p.2 = -1 then cs else addToCluster p.2 p.1 cs) []

/-- `find_similar_groups(eps, min_samples)`
(src/similarity_analyzer.py:167-226) over the `(filepath, blob)` rows of
the embeddings table. -/
def find_similar_groups (env : ClusterEnv) (eps : Int) (minSamples : Nat)
    (embeddings_data : List (String × Nat)) : List (List String) :=
  if embeddings_data.length < 2 then []
  else
    let decoded := embeddings_data.filterMap (fun fe =>
      (env.loads fe.2).map (fun e => (fe.1, e)))
    if decoded.length < 2 then []
    else
      let cluster_labels := env.labels eps minSamples (decoded.map (fun d => d.2))
      let pairs := (decoded.map (fun d => d.1)).zip cluster_labels
      ((buildClusters pairs).map (fun c => c.2)).filter (fun g => decide (1 < g.length))

/-- C8: for every embedding set and every choice of the eps and min_samples
parameters (and whatever labelling DBSCAN produces), `find_similar_groups`
never returns a group of size 1 — every returned group has at least two
member filepaths, thanks to the final size filter. -/
theorem find_similar_groups_min_size (env : ClusterEnv) (eps : Int) (minSamples : Nat)
    (data : List (String × Nat)) :
    ∀ g ∈ find_similar_groups env eps minSamples data, 2 ≤ g.length := by
  intro g hg
  unfold find_similar_groups at hg
  split at hg
  · simp at hg
  · have h2 := (List.mem_filter.mp (by
      revert hg
      dsimp only
      split
      · intro h; simp at h
      · exact fun h => h)).2
    have := of_decide_eq_true h2
    omega

def c8Env : ClusterEnv := ⟨some, fun _ _ _ => [0, 0]⟩

/-- C8 witness: with two decodable embeddings both labelled 0, the single
returned group has the two filepaths. -/
theorem find_similar_groups_min_size_witness :
    ["a", "b"] ∈ find_similar_groups c8Env 0 2 [("a", 1), ("b", 2)] ∧
    2 ≤ (["a", "b"] : List String).length :=
  ⟨by decide,
   find_similar_groups_min_size c8Env 0 2 [("a", 1), ("b", 2)] ["a", "b"] (by decide)⟩

/-! ## Ingestion scanner (claim C6)

`PhotoManager.scan_photos` (src/app.py:157-229) on a cache miss, restricted
to its catalog effect.  `os.walk` is the oracle list of `(root, file)`
entries; `should_ignore_file` (fnmatch patterns) and
`extract_original_date` (EXIF/mtime) are oracles. -/

structure ScanEnv where
  ignoreFile : String → Bool
  dateOf : String → Option String

/-- The extension gate of src/app.py:174:
`file.lower().endswith(('.jpg', '.jpeg', '.png', '.tiff', '.bmp'))`. -/
def isImageFile (file : String) : Bool :=
  endsWithL (lowerL file.data) ".jpg".data ||
  endsWithL (lowerL file.data) ".jpeg".data ||
  endsWithL (lowerL file.data) ".png".data ||
  endsWithL (lowerL file.data) ".tiff".data ||
  endsWithL (lowerL file.data) ".bmp".data

/-- The walk-loop body of `scan_photos` (src/app.py:172-193) as far as the
catalog is concerned: the tuple staged into `new_photos_to_add`, or `none`
when the entry is skipped (`filepath = os.path.join(root, file)`). -/
def scanStep (db : DB) (env : ScanEnv) (rf : String × String) :
    Option (String × String × String × Option String) :=
  if isImageFile rf.2 && !env.ignoreFile rf.2 then
    if (rf.1 ++ "/" ++ rf.2) ∈ get_processed_photos db ∨
       (rf.1 ++ "/" ++ rf.2) ∈ get_ignored_photos db then none
    else if (rf.1 ++ "/" ++ rf.2) ∈ get_all_photo_paths db then none
    else some (rf.1 ++ "/" ++ rf.2, extract_base_name rf.2,
      _determine_file_type rf.2, env.dateOf (rf.1 ++ "/" ++ rf.2))
  else none

/-- The `new_photos_to_add` list accumulated by src/app.py:172-193. -/
def scanCandidates (db : DB) (env : ScanEnv) (walk : List (String × String)) :
    List (String × String × String × Option String) :=
  walk.filterMap (scanStep db env)

/-- `scan_photos`'s catalog effect (src/app.py:214-216): bulk-insert the
staged tuples. -/
def scan_photos (db : DB) (env : ScanEnv) (walk : List (String × String)) : DB :=
  batch_add_photos db (scanCandidates db env walk)

theorem batch_processed_eq (l : List (String × String × String × Option String)) :
    ∀ db : DB, get_processed_photos (batch_add_photos db l) = get_processed_photos db := by
  induction l with
  | nil => intro db; rfl
  | cons t l ih =>
    intro db
    simp only [batch_add_photos, List.foldl_cons] at *
    rw [ih]
    split
    · rfl
    · unfold get_processed_photos
      dsimp only
      rw [List.filter_append]
      simp

theorem batch_ignored_eq (l : List (String × String × String × Option String)) :
    ∀ db : DB, get_ignored_photos (batch_add_photos db l) = get_ignored_photos db := by
  induction l with
  | nil => intro db; rfl
  | cons t l ih =>
    intro db
    simp only [batch_add_photos, List.foldl_cons] at *
    rw [ih]
    split
    · rfl
    · unfold get_ignored_photos
      dsimp only
      rw [List.filter_append]
      simp

theorem batch_paths_mono (l : List (String × String × String × Option String)) :
    ∀ (db : DB) (q : String), q ∈ get_all_photo_paths db →
      q ∈ get_all_photo_paths (batch_add_photos db l) := by
  induction l with
  | nil => intro db q hq; exact hq
  | cons t l ih =>
    intro db q hq
    simp only [batch_add_photos, List.foldl_cons] at *
    apply ih
    split
    · exact hq
    · unfold get_all_photo_paths at *
      dsimp only
      rw [List.map_append]
      exact List.mem_append_left _ hq

theorem batch_paths_cover (l : List (String × String × String × Option String)) :
    ∀ (db : DB) (c : String × String × String × Option String), c ∈ l →
      c.1 ∈ get_all_photo_paths (batch_add_photos db l) := by
  induction l with
  | nil => intro db c hc; simp at hc
  | cons t l ih =>
    intro db c hc
    simp only [batch_add_photos, List.foldl_cons]
    rcases List.mem_cons.mp hc with h | h
    · subst h
      apply batch_paths_mono
      split
      · rename_i hin
        exact hin
      · unfold get_all_photo_paths
        dsimp only
        rw [List.map_append]
        exact List.mem_append_right _ (by simp)
    · exact ih _ c h

theorem batch_add_new (l : List (String × String × String × Option String)) :
    ∀ db : DB, ∃ new, (batch_add_photos db l).photos = db.photos ++ new ∧
      ∀ r ∈ new, r.filepath ∉ get_all_photo_paths db ∧
        r.processed_date = none ∧ r.ignored_date = none := by
  induction l with
  | nil => intro db; exact ⟨[], by simp [batch_add_photos], by simp⟩
  | cons t l ih =>
    intro db
    simp only [batch_add_photos, List.foldl_cons] at *
    split
    · exact ih db
    · rename_i hnew
      obtain ⟨new', h1, h2⟩ := ih
        { db with
          photos := db.photos ++ [⟨db.nextPhotoId, t.1, t.2.1, t.2.2.1, t.2.2.2, none, none⟩],
          nextPhotoId := db.nextPhotoId + 1 }
      refine ⟨⟨db.nextPhotoId, t.1, t.2.1, t.2.2.1, t.2.2.2, none, none⟩ :: new', ?_, ?_⟩
      · rw [h1]
        simp
      · intro r hr
        rcases List.mem_cons.mp hr with h | h
        · subst h
          exact ⟨hnew, rfl, rfl⟩
        · obtain ⟨hfp, hpd, hid⟩ := h2 r h
          refine ⟨fun hmem => hfp ?_, hpd, hid⟩
          unfold get_all_photo_paths at *
          dsimp only
          rw [List.map_append]
          exact List.mem_append_left _ hmem

theorem scanStep_some_path (db : DB) (env : ScanEnv) (rf : String × String)
    (c : String × String × String × Option String)
    (h : scanStep db env rf = some c) : c.1 = rf.1 ++ "/" ++ rf.2 := by
  unfold scanStep at h
  split at h
  · split at h
    · exact absurd h (by simp)
    · split at h
      · exact absurd h (by simp)
      · cases h
        rfl
  · exact absurd h (by simp)

/-- C6: the ingestion scan is idempotent with respect to catalog inserts.
With the filesystem walk, ignore patterns and date extraction unchanged, a
second `scan_photos` stages zero tuples (so the catalog is unchanged), and
a `batch_add_photos` bulk insert only ever appends rows whose filepath was
absent — a record whose filepath is already present is never modified. -/
theorem scan_photos_idempotent (db : DB) (env : ScanEnv)
    (walk : List (String × String))
    (l : List (String × String × String × Option String)) :
    scanCandidates (scan_photos db env walk) env walk = [] ∧
    scan_photos (scan_photos db env walk) env walk = scan_photos db env walk ∧
    (∃ new, (batch_add_photos db l).photos = db.photos ++ new ∧
      ∀ r ∈ new, r.filepath ∉ get_all_photo_paths db) := by
  have hstep : ∀ rf ∈ walk, scanStep (scan_photos db env walk) env rf = none := by
    intro rf hrf
    unfold scanStep
    by_cases himg : (isImageFile rf.2 && !env.ignoreFile rf.2) = true
    · rw [if_pos himg]
      by_cases hpi : (rf.1 ++ "/" ++ rf.2) ∈ get_processed_photos (scan_photos db env walk) ∨
          (rf.1 ++ "/" ++ rf.2) ∈ get_ignored_photos (scan_photos db env walk)
      · rw [if_pos hpi]
      · rw [if_neg hpi]
        have hpi0 : ¬((rf.1 ++ "/" ++ rf.2) ∈ get_processed_photos db ∨
            (rf.1 ++ "/" ++ rf.2) ∈ get_ignored_photos db) := by
          rw [show scan_photos db env walk
              = batch_add_photos db (scanCandidates db env walk) from rfl,
            batch_processed_eq, batch_ignored_eq] at hpi
          exact hpi
        have hin : (rf.1 ++ "/" ++ rf.2) ∈ get_all_photo_paths (scan_photos db env walk) := by
          by_cases hall : (rf.1 ++ "/" ++ rf.2) ∈ get_all_photo_paths db
          · exact batch_paths_mono _ _ _ hall
          · have hsome : scanStep db env rf = some (rf.1 ++ "/" ++ rf.2,
                extract_base_name rf.2, _determine_file_type rf.2,
                env.dateOf (rf.1 ++ "/" ++ rf.2)) := by
              unfold scanStep
              rw [if_pos himg, if_neg hpi0, if_neg hall]
            have hmem : (rf.1 ++ "/" ++ rf.2, extract_base_name rf.2,
                _determine_file_type rf.2, env.dateOf (rf.1 ++ "/" ++ rf.2))
                ∈ scanCandidates db env walk :=
              List.mem_filterMap.mpr ⟨rf, hrf, hsome⟩
            exact batch_paths_cover _ _ _ hmem
        rw [if_pos hin]
    · rw [if_neg himg]
  have hnil : scanCandidates (scan_photos db env walk) env walk = [] := by
    unfold scanCandidates
    exact List.filterMap_eq_nil.mpr hstep
  refine ⟨hnil, ?_, ?_⟩
  · show batch_add_photos (scan_photos db env walk)
        (scanCandidates (scan_photos db env walk) env walk) = scan_photos db env walk
    rw [hnil]
    rfl
  · obtain ⟨new, h1, h2⟩ := batch_add_new l db
    exact ⟨new, h1, fun r hr => (h2 r hr).1⟩

/-! ## Ignoring a photo set (claim C9)

`PhotoManager.ignore_photo_set` (src/app.py:131-143) over the photo-pairs
dict (`{'front', 'back', 'variants', 'default_date'}` per base name). -/

structure PairEntry where
  front : Option String
  back : Option String
  variants : List String
  default_date : Option String
deriving DecidableEq

/-- Python string truthiness: the empty string is falsy. -/
def truthyS (s : String) : Bool := s != ""

/-- The files iterated by src/app.py:135-136:
`[pair['front'], pair['back']] + pair.get('variants', [])`, keeping only
truthy entries. -/
def setFiles (pair : PairEntry) : List String :=
  (([pair.front, pair.back].filterMap id) ++ pair.variants).filter truthyS

structure IgnoreEnv where
  dateOf : String → Option String

/-- The loop body of src/app.py:136-141: `add_photo` (INSERT OR REPLACE)
with a recomputed default date, then `mark_photo_ignored`. -/
def ignoreFile (env : IgnoreEnv) (base_name : String) (now : Nat) (db : DB)
    (filepath : String) : DB :=
  mark_photo_ignored
    (add_photo db filepath base_name (_determine_file_type (basename filepath))
      (env.dateOf filepath))
    filepath now

/-- `ignore_photo_set(base_name, photo_pairs)` (src/app.py:131-143). -/
def ignore_photo_set (env : IgnoreEnv) (db : DB) (base_name : String)
    (photo_pairs : String → Option PairEntry) (now : Nat) : DB × Bool :=
  match photo_pairs base_name with
  | none => (db, false)
  | some pair => ((setFiles pair).foldl (ignoreFile env base_name now) db, true)

/-- The rows `ignore_photo_set` leaves behind for the files it touches,
with consecutive autoincrement ids from `startId`. -/
def ignoredRows (env : IgnoreEnv) (base : String) (now : Nat) :
    Nat → List String → List PhotoRow
  | _, [] => []
  | startId, g :: gs =>
    ⟨startId, g, base, _determine_file_type (basename g), env.dateOf g, none, some now⟩ ::
      ignoredRows env base now (startId + 1) gs

theorem ignoreFile_photos (env : IgnoreEnv) (base : String) (now : Nat) (db : DB)
    (g : String) :
    ignoreFile env base now db g =
      { db with
        photos := db.photos.filter (fun p => p.filepath ≠ g) ++
          [⟨db.nextPhotoId, g, base, _determine_file_type (basename g),
            env.dateOf g, none, some now⟩],
        nextPhotoId := db.nextPhotoId + 1 } := by
  unfold ignoreFile add_photo mark_photo_ignored
  dsimp only
  congr 1
  rw [List.map_append]
  congr 1
  · have h : ∀ p ∈ db.photos.filter (fun p => p.filepath ≠ g),
        (if p.filepath = g then { p with ignored_date := some now } else p) = p := by
      intro p hp
      rw [if_neg (by simpa using (List.mem_filter.mp hp).2)]
    calc (db.photos.filter (fun p => p.filepath ≠ g)).map
          (fun p => if p.filepath = g then { p with ignored_date := some now } else p)
        = (db.photos.filter (fun p => p.filepath ≠ g)).map id := List.map_congr_left h
      _ = _ := List.map_id _
  · simp

theorem ignore_fold_closed (env : IgnoreEnv) (base : String) (now : Nat)
    (gs : List String) :
    ∀ db : DB, gs.Nodup →
      gs.foldl (ignoreFile env base now) db =
        { db with
          photos := db.photos.filter (fun p => decide (p.filepath ∉ gs)) ++
            ignoredRows env base now db.nextPhotoId gs,
          nextPhotoId := db.nextPhotoId + gs.length } := by
  induction gs with
  | nil =>
    intro db _
    simp [ignoredRows]
  | cons g gs ih =>
    intro db hnd
    rw [List.foldl_cons, ignoreFile_photos, ih _ (List.nodup_cons.mp hnd).2]
    have hg : g ∉ gs := (List.nodup_cons.mp hnd).1
    congr 1
    · rw [List.filter_append]
      have h1 : (db.photos.filter (fun p => p.filepath ≠ g)).filter
            (fun p => decide (p.filepath ∉ gs)) =
          db.photos.filter (fun p => decide (p.filepath ∉ g :: gs)) := by
        rw [List.filter_filter]
        apply List.filter_congr
        intro p _
        simp [List.mem_cons, not_or]
        exact Bool.and_comm _ _
      have h2 : ([⟨db.nextPhotoId, g, base, _determine_file_type (basename g),
            env.dateOf g, none, some now⟩] : List PhotoRow).filter
            (fun p => decide (p.filepath ∉ gs)) =
          [⟨db.nextPhotoId, g, base, _determine_file_type (basename g),
            env.dateOf g, none, some now⟩] := by
        simp [hg]
      rw [h1, h2, List.append_assoc]
      rfl
    · dsimp only
      rw [List.length_cons]
      omega

theorem ignoredRows_mem (env : IgnoreEnv) (base : String) (now : Nat)
    (gs : List String) :
    ∀ (s : Nat) (fp : String), fp ∈ gs →
      ∃ i, s ≤ i ∧
        (⟨i, fp, base, _determine_file_type (basename fp), env.dateOf fp, none,
          some now⟩ : PhotoRow) ∈ ignoredRows env base now s gs := by
  induction gs with
  | nil => intro s fp h; simp at h
  | cons g gs ih =>
    intro s fp h
    rcases List.mem_cons.mp h with h | h
    · subst h
      exact ⟨s, le_refl s, by simp [ignoredRows]⟩
    · obtain ⟨i, hi, hmem⟩ := ih (s + 1) fp h
      exact ⟨i, by omega, by simp [ignoredRows, hmem]⟩

theorem ignoredRows_id_ge (env : IgnoreEnv) (base : String) (now : Nat)
    (gs : List String) :
    ∀ (s : Nat) (q : PhotoRow), q ∈ ignoredRows env base now s gs → s ≤ q.id := by
  induction gs with
  | nil => intro s q h; simp [ignoredRows] at h
  | cons g gs ih =>
    intro s q h
    rcases List.mem_cons.mp (by simpa [ignoredRows] using h) with h | h
    · subst h; exact le_refl _
    · have := ih (s + 1) q h
      omega

/-- C9: `ignore_photo_set` does not merely stamp pre-existing rows.  For a
filepath of the set already present in the catalog, the row is re-inserted
with replace semantics: the photo table afterwards holds a row for that
filepath with a fresh id (at least the old autoincrement bound), a
recomputed default date, a cleared processed timestamp and the new ignored
timestamp, while the old row's id has vanished from the photo table
entirely; the member and embedding tables are untouched, so a member row
keyed to the old id references no existing photo.  The id hypotheses are
SQLite's AUTOINCREMENT/uniqueness invariants; the Nodup hypothesis holds
for the dict-built photo sets (front/back/variants are distinct paths). -/
theorem ignore_photo_set_replaces (env : IgnoreEnv) (db : DB) (base : String)
    (photo_pairs : String → Option PairEntry) (now : Nat) (pair : PairEntry)
    (r : PhotoRow) (fp : String)
    (hlk : photo_pairs base = some pair)
    (hfp : fp ∈ setFiles pair)
    (hr : r ∈ db.photos) (hrfp : r.filepath = fp)
    (hfresh : ∀ p ∈ db.photos, p.id < db.nextPhotoId)
    (hndid : (db.photos.map (fun p => p.id)).Nodup)
    (hnd : (setFiles pair).Nodup) :
    (ignore_photo_set env db base photo_pairs now).2 = true ∧
    (∃ q ∈ (ignore_photo_set env db base photo_pairs now).1.photos,
      q.filepath = fp ∧ q.base_name = base ∧ q.processed_date = none ∧
      q.ignored_date = some now ∧ q.default_date = env.dateOf fp ∧
      db.nextPhotoId ≤ q.id) ∧
    (∀ q ∈ (ignore_photo_set env db base photo_pairs now).1.photos, q.id ≠ r.id) ∧
    (ignore_photo_set env db base photo_pairs now).1.members = db.members ∧
    (ignore_photo_set env db base photo_pairs now).1.embeddings = db.embeddings ∧
    (∀ m ∈ (ignore_photo_set env db base photo_pairs now).1.members,
      m.photo_id = r.id →
        ∀ p ∈ (ignore_photo_set env db base photo_pairs now).1.photos,
          p.id ≠ m.photo_id) := by
  have hout : ignore_photo_set env db base photo_pairs now =
      ((setFiles pair).foldl (ignoreFile env base now) db, true) := by
    unfold ignore_photo_set
    rw [hlk]
  rw [hout]
  dsimp only
  rw [ignore_fold_closed env base now (setFiles pair) db hnd]
  dsimp only
  have hid : ∀ q ∈ db.photos.filter (fun p => decide (p.filepath ∉ setFiles pair)) ++
      ignoredRows env base now db.nextPhotoId (setFiles pair), q.id ≠ r.id := by
    intro q hq
    rcases List.mem_append.mp hq with h | h
    · have hq1 := List.mem_filter.mp h
      intro heq
      have hqr : q = r := List.inj_on_of_nodup_map hndid hq1.1 hr heq
      have := hq1.2
      rw [hqr, hrfp] at this
      simp [hfp] at this
    · have := ignoredRows_id_ge env base now (setFiles pair) db.nextPhotoId q h
      have := hfresh r hr
      omega
  refine ⟨rfl, ?_, hid, rfl, rfl, ?_⟩
  · obtain ⟨i, hi, hmem⟩ := ignoredRows_mem env base now (setFiles pair) db.nextPhotoId fp hfp
    exact ⟨⟨i, fp, base, _determine_file_type (basename fp), env.dateOf fp, none, some now⟩,
      List.mem_append_right _ hmem, rfl, rfl, rfl, rfl, rfl, hi⟩
  · intro m _ hmid p hp
    rw [hmid]
    exact hid p hp

def c9Env : IgnoreEnv := ⟨fun _ => some "2020-01-01"⟩

def c9Pair : PairEntry := ⟨some "u/x_a.jpg", none, [], none⟩

def c9Pairs : String → Option PairEntry :=
  fun k => if k = "x" then some c9Pair else none

def c9Row : PhotoRow := ⟨1, "u/x_a.jpg", "x", "front", none, some 5, none⟩

def c9Db : DB :=
  { photos := [c9Row], groups := [], members := [⟨1, 2, none⟩], embeddings := [],
    nextPhotoId := 2, nextGroupId := 3 }

/-- C9 witness: ignoring the set of a previously processed photo discards
its processed state (fresh row, cleared processed date) and leaves its old
id dangling for the member row keyed to it. -/
theorem ignore_photo_set_replaces_witness :
    (c9Pairs "x" = some c9Pair ∧
     "u/x_a.jpg" ∈ setFiles c9Pair ∧
     c9Row ∈ c9Db.photos ∧
     c9Row.filepath = "u/x_a.jpg" ∧
     (∀ p ∈ c9Db.photos, p.id < c9Db.nextPhotoId) ∧
     (c9Db.photos.map (fun p => p.id)).Nodup ∧
     (setFiles c9Pair).Nodup) ∧
    ((ignore_photo_set c9Env c9Db "x" c9Pairs 77).2 = true ∧
     (∃ q ∈ (ignore_photo_set c9Env c9Db "x" c9Pairs 77).1.photos,
       q.filepath = "u/x_a.jpg" ∧ q.base_name = "x" ∧ q.processed_date = none ∧
       q.ignored_date = some 77 ∧ q.default_date = c9Env.dateOf "u/x_a.jpg" ∧
       c9Db.nextPhotoId ≤ q.id) ∧
     (∀ q ∈ (ignore_photo_set c9Env c9Db "x" c9Pairs 77).1.photos, q.id ≠ c9Row.id) ∧
     (ignore_photo_set c9Env c9Db "x" c9Pairs 77).1.members = c9Db.members ∧
     (ignore_photo_set c9Env c9Db "x" c9Pairs 77).1.embeddings = c9Db.embeddings ∧
     (∀ m ∈ (ignore_photo_set c9Env c9Db "x" c9Pairs 77).1.members,
       m.photo_id = c9Row.id →
         ∀ p ∈ (ignore_photo_set c9Env c9Db "x" c9Pairs 77).1.photos,
           p.id ≠ m.photo_id)) :=
  ⟨⟨by decide, by decide, by decide, by decide, by decide, by decide, by decide⟩,
   ignore_photo_set_replaces c9Env c9Db "x" c9Pairs 77 c9Pair c9Row "u/x_a.jpg"
     (by decide) (by decide) (by decide) (by decide) (by decide) (by decide) (by decide)⟩

/-! ## Unprocessed-set listing (claim C10)

`DatabaseManager.get_unprocessed_photos` (src/database.py:415-459) and
`PhotoManager.get_unprocessed_photo_pairs` (src/app.py:231-246) on a cache
miss.  The dict is a function from base names to entries. -/

def truthyOpt : Option String → Bool
  | none => false
  | some s => truthyS s

def emptyEntry : PairEntry := ⟨none, none, [], none⟩

/-- The per-row dict update of src/database.py:446-457. -/
def updEntry (e : PairEntry) (file_type filepath : String) (dd : Option String) :
    PairEntry :=
  if file_type = "front" then
    { e with front := some filepath,
             default_date := if truthyOpt dd then dd else e.default_date }
  else if file_type = "back" then
    { e with back := some filepath,
             default_date := if !truthyOpt e.default_date && truthyOpt dd then dd
               else e.default_date }
  else
    { e with variants := e.variants ++ [filepath] }

/-- `ORDER BY base_name, file_type` (src/database.py:425) as a stable
insertion sort over the lexicographic key. -/
def rowLeB (a b : PhotoRow) : Bool :=
  decide (a.base_name < b.base_name) ||
    (a.base_name == b.base_name && decide (a.file_type ≤ b.file_type))

def orderedInsertRow (r : PhotoRow) : List PhotoRow → List PhotoRow
  | [] => [r]
  | x :: xs => if rowLeB r x then r :: x :: xs else x :: orderedInsertRow r xs

def sortRows : List PhotoRow → List PhotoRow
  | [] => []
  | x :: xs => orderedInsertRow x (sortRows xs)

theorem mem_orderedInsertRow (r q : PhotoRow) :
    ∀ l, q ∈ orderedInsertRow r l ↔ q = r ∨ q ∈ l := by
  intro l
  induction l with
  | nil => simp [orderedInsertRow]
  | cons x xs ih =>
    simp only [orderedInsertRow]
    split
    · simp [List.mem_cons]
    · rw [List.mem_cons, ih, List.mem_cons]
      tauto

theorem mem_sortRows (q : PhotoRow) : ∀ l, q ∈ sortRows l ↔ q ∈ l := by
  intro l
  induction l with
  | nil => simp [sortRows]
  | cons x xs ih =>
    simp only [sortRows]
    rw [mem_orderedInsertRow, ih, List.mem_cons]

/-- The rows fetched by src/database.py:421-426. -/
def unprocRows (db : DB) : List PhotoRow :=
  sortRows (db.photos.filter
    (fun p => p.processed_date == none && p.ignored_date == none))

/-- One iteration of the grouping loop (src/database.py:436-457). -/
def pairStep (d : String → Option PairEntry) (row : PhotoRow) :
    String → Option PairEntry :=
  fun k =>
    if k = row.base_name then
      some (updEntry ((d row.base_name).getD emptyEntry) row.file_type
        row.filepath row.default_date)
    else d k

def buildPairs (l : List PhotoRow) (dict : String → Option PairEntry) :
    String → Option PairEntry :=
  l.foldl pairStep dict

/-- `get_unprocessed_photos` (src/database.py:415-459). -/
def get_unprocessed_photos (db : DB) : String → Option PairEntry :=
  buildPairs (unprocRows db) (fun _ => none)

/-- `get_unprocessed_photo_pairs` (src/app.py:231-246, cache miss):
`{k: v for k, v in photo_pairs.items() if v['front'] or v['back']}`. -/
def get_unprocessed_photo_pairs (db : DB) : String → Option PairEntry :=
  fun k => match get_unprocessed_photos db k with
  | none => none
  | some v => if truthyOpt v.front || truthyOpt v.back then some v else none

def slotF : Option PairEntry → Bool
  | none => false
  | some e => truthyOpt e.front

def slotB : Option PairEntry → Bool
  | none => false
  | some e => truthyOpt e.back

theorem getD_front (o : Option PairEntry) :
    truthyOpt (o.getD emptyEntry).front = slotF o := by
  cases o <;> rfl

theorem getD_back (o : Option PairEntry) :
    truthyOpt (o.getD emptyEntry).back = slotB o := by
  cases o <;> rfl

theorem pairStep_slotF (dict : String → Option PairEntry) (r : PhotoRow) (base : String)
    (hfr : r.filepath ≠ "") :
    slotF (pairStep dict r base) =
      (slotF (dict base) || (r.base_name == base && r.file_type == "front")) := by
  unfold pairStep
  by_cases hb : base = r.base_name
  · rw [if_pos hb]
    subst hb
    unfold updEntry
    by_cases hft : r.file_type = "front"
    · rw [if_pos hft]
      simp [slotF, truthyOpt, truthyS, hfr, hft]
    · rw [if_neg hft]
      have hne : (r.file_type == "front") = false := by
        simp [hft]
      by_cases hbk : r.file_type = "back"
      · rw [if_pos hbk]
        show truthyOpt ((dict r.base_name).getD emptyEntry).front = _
        rw [getD_front, hne]
        simp [slotF]
      · rw [if_neg hbk]
        show truthyOpt ((dict r.base_name).getD emptyEntry).front = _
        rw [getD_front, hne]
        simp [slotF]
  · rw [if_neg hb]
    have hne : (r.base_name == base) = false := by
      simp
      exact fun h => hb h.symm
    rw [hne]
    simp

theorem pairStep_slotB (dict : String → Option PairEntry) (r : PhotoRow) (base : String)
    (hfr : r.filepath ≠ "") :
    slotB (pairStep dict r base) =
      (slotB (dict base) || (r.base_name == base && r.file_type == "back")) := by
  unfold pairStep
  by_cases hb : base = r.base_name
  · rw [if_pos hb]
    subst hb
    unfold updEntry
    by_cases hft : r.file_type = "front"
    · rw [if_pos hft]
      have hne : (r.file_type == "back") = false := by
        simp [hft]
      show truthyOpt ((dict r.base_name).getD emptyEntry).back = _
      rw [getD_back, hne]
      simp [slotB]
    · rw [if_neg hft]
      by_cases hbk : r.file_type = "back"
      · rw [if_pos hbk]
        simp [slotB, truthyOpt, truthyS, hfr, hbk]
      · rw [if_neg hbk]
        have hne : (r.file_type == "back") = false := by
          simp [hbk]
        show truthyOpt ((dict r.base_name).getD emptyEntry).back = _
        rw [getD_back, hne]
        simp [slotB]
  · rw [if_neg hb]
    have hne : (r.base_name == base) = false := by
      simp
      exact fun h => hb h.symm
    rw [hne]
    simp

theorem buildPairs_slotF (base : String) :
    ∀ (l : List PhotoRow) (dict : String → Option PairEntry),
      (∀ r ∈ l, r.filepath ≠ "") →
      slotF (buildPairs l dict base) =
        (slotF (dict base) ||
          l.any (fun r => r.base_name == base && r.file_type == "front")) := by
  intro l
  induction l with
  | nil => intro dict _; simp [buildPairs]
  | cons r t ih =>
    intro dict hfp
    have hfr : r.filepath ≠ "" := hfp r (List.mem_cons_self r t)
    have htl : ∀ x ∈ t, x.filepath ≠ "" := fun x hx => hfp x (List.mem_cons_of_mem r hx)
    show slotF (buildPairs t (pairStep dict r) base) = _
    rw [ih (pairStep dict r) htl, pairStep_slotF dict r base hfr, List.any_cons,
      Bool.or_assoc]

theorem buildPairs_slotB (base : String) :
    ∀ (l : List PhotoRow) (dict : String → Option PairEntry),
      (∀ r ∈ l, r.filepath ≠ "") →
      slotB (buildPairs l dict base) =
        (slotB (dict base) ||
          l.any (fun r => r.base_name == base && r.file_type == "back")) := by
  intro l
  induction l with
  | nil => intro dict _; simp [buildPairs]
  | cons r t ih =>
    intro dict hfp
    have hfr : r.filepath ≠ "" := hfp r (List.mem_cons_self r t)
    have htl : ∀ x ∈ t, x.filepath ≠ "" := fun x hx => hfp x (List.mem_cons_of_mem r hx)
    show slotB (buildPairs t (pairStep dict r) base) = _
    rw [ih (pairStep dict r) htl, pairStep_slotB dict r base hfr, List.any_cons,
      Bool.or_assoc]

/-- C10: the unprocessed-set listing only contains base names with at least
one unprocessed, non-ignored photo stored in the front or back slot — a
base name whose unprocessed photos are all stored as `variant` is omitted
entirely, even though its rows stay unprocessed in the catalog.  The
filepath hypothesis reflects that stored paths (built by `os.path.join`)
are never the empty string. -/
theorem unprocessed_pairs_need_front_or_back (db : DB) (base : String)
    (hfp : ∀ p ∈ db.photos, p.filepath ≠ "") :
    ((get_unprocessed_photo_pairs db base).isSome = true ↔
      ∃ p ∈ db.photos, p.processed_date = none ∧ p.ignored_date = none ∧
        p.base_name = base ∧ (p.file_type = "front" ∨ p.file_type = "back")) := by
  have hfp' : ∀ r ∈ unprocRows db, r.filepath ≠ "" := by
    intro r hr
    have hr' : r ∈ db.photos.filter
        (fun p => p.processed_date == none && p.ignored_date == none) := by
      unfold unprocRows at hr
      exact (mem_sortRows r _).mp hr
    exact hfp r (List.mem_filter.mp hr').1
  have hmem : ∀ r : PhotoRow, r ∈ unprocRows db ↔
      r ∈ db.photos ∧ r.processed_date = none ∧ r.ignored_date = none := by
    intro r
    unfold unprocRows
    rw [mem_sortRows, List.mem_filter]
    simp
  have hF := buildPairs_slotF base (unprocRows db) (fun _ => none) hfp'
  have hB := buildPairs_slotB base (unprocRows db) (fun _ => none) hfp'
  have hkey : (get_unprocessed_photo_pairs db base).isSome =
      (slotF (get_unprocessed_photos db base) ||
        slotB (get_unprocessed_photos db base)) := by
    unfold get_unprocessed_photo_pairs
    cases hv : get_unprocessed_photos db base with
    | none => rfl
    | some v =>
      dsimp only [slotF, slotB]
      cases hft : truthyOpt v.front <;> cases hbt : truthyOpt v.back <;>
        simp [hft, hbt]
  rw [hkey]
  have hgup : get_unprocessed_photos db base
      = buildPairs (unprocRows db) (fun _ => none) base := rfl
  rw [hgup, hF, hB]
  have h0 : slotF ((fun _ : String => (none : Option PairEntry)) base) = false := rfl
  have h0' : slotB ((fun _ : String => (none : Option PairEntry)) base) = false := rfl
  rw [h0, h0', Bool.false_or, Bool.false_or]
  simp only [Bool.or_eq_true, List.any_eq_true]
  constructor
  · rintro (⟨r, hr, hc⟩ | ⟨r, hr, hc⟩)
    · obtain ⟨h1, h2, h3⟩ := (hmem r).mp hr
      simp only [Bool.and_eq_true, beq_iff_eq] at hc
      exact ⟨r, h1, h2, h3, hc.1, Or.inl hc.2⟩
    · obtain ⟨h1, h2, h3⟩ := (hmem r).mp hr
      simp only [Bool.and_eq_true, beq_iff_eq] at hc
      exact ⟨r, h1, h2, h3, hc.1, Or.inr hc.2⟩
  · rintro ⟨p, hp, h2, h3, h4, h5 | h5⟩
    · exact Or.inl ⟨p, (hmem p).mpr ⟨hp, h2, h3⟩, by simp [h4, h5]⟩
    · exact Or.inr ⟨p, (hmem p).mpr ⟨hp, h2, h3⟩, by simp [h4, h5]⟩

def c10Db : DB :=
  { photos := [⟨1, "u/x_a.jpg", "x", "front", none, none, none⟩,
               ⟨2, "u/y.jpg", "y", "variant", none, none, none⟩],
    groups := [], members := [], embeddings := [],
    nextPhotoId := 3, nextGroupId := 1 }

/-- C10 witness: a base name with an unprocessed front photo satisfies the
characterization at a concrete catalog. -/
theorem unprocessed_pairs_need_front_or_back_witness :
    (∀ p ∈ c10Db.photos, p.filepath ≠ "") ∧
    ((get_unprocessed_photo_pairs c10Db "x").isSome = true ↔
      ∃ p ∈ c10Db.photos, p.processed_date = none ∧ p.ignored_date = none ∧
        p.base_name = "x" ∧ (p.file_type = "front" ∨ p.file_type = "back")) :=
  ⟨by decide, unprocessed_pairs_need_front_or_back c10Db "x" (by decide)⟩

end PhotoFix
